import Mathlib

/-!
Shallow embedding of the quadtree spatial index from the
Distributed-Delivery-Routing-Engine repository (Go, package `spatial`).

Modelling conventions:
* Go `float64` coordinates are modelled as exact rationals (`ℚ`); the code
  performs only comparisons, additions, subtractions and halving on them.
* The opaque `Data interface{}` payload is modelled as `ℤ`.
* Go `int` values (`Capacity`, the `k` of `KNearest`) are modelled as `ℤ`.
* The recursive `InsertNode`/`SubDivide` pair is not structurally
  terminating (and indeed diverges on some inputs), so it is modelled with
  an explicit fuel parameter; `none` means the computation did not finish
  within the given fuel, i.e. it is the fuel-indexed approximation of a
  possibly divergent computation.
* The `sync.RWMutex` locking in the `QuadTree` facade serialises every
  public operation, so the facade is modelled by pure functions on the
  root node.
-/

namespace QTree

/-- `Point` from the source: coordinate pair plus opaque payload. -/
structure Pt where
  x : ℚ
  y : ℚ
  data : ℤ
deriving DecidableEq

/-- `Bounds` from the source: axis-aligned rectangle, `(x, y)` top-left. -/
structure Bnds where
  x : ℚ
  y : ℚ
  width : ℚ
  height : ℚ
deriving DecidableEq

/-- `Bounds.Contains` from the source:
`point.X >= b.X && point.X <= b.X+b.Width && point.Y <= b.Y+b.Height && point.Y >= b.Y`. -/
def containsB (b : Bnds) (p : Pt) : Bool :=
  decide (p.x ≥ b.x) && decide (p.x ≤ b.x + b.width) &&
    decide (p.y ≤ b.y + b.height) && decide (p.y ≥ b.y)

/-- `Bounds.Intersects` from the source:
`!(b.X > o.X+o.W || b.X+b.W < o.X || b.Y > o.Y+o.H || b.Y+b.H < o.Y)`. -/
def intersectsB (b other : Bnds) : Bool :=
  !(decide (b.x > other.x + other.width) || decide (b.x + b.width < other.x) ||
    decide (b.y > other.y + other.height) || decide (b.y + b.height < other.y))

theorem containsB_iff {b : Bnds} {p : Pt} :
    containsB b p = true ↔
      b.x ≤ p.x ∧ p.x ≤ b.x + b.width ∧ p.y ≤ b.y + b.height ∧ b.y ≤ p.y := by
  simp [containsB, and_assoc, ge_iff_le]

theorem intersectsB_iff {b o : Bnds} :
    intersectsB b o = true ↔
      b.x ≤ o.x + o.width ∧ o.x ≤ b.x + b.width ∧
        b.y ≤ o.y + o.height ∧ o.y ≤ b.y + b.height := by
  simp [intersectsB, not_or, not_lt, and_assoc]

/-- `Contains` only inspects coordinates, never the payload. -/
theorem containsB_congr_coords {b : Bnds} {p q : Pt}
    (hx : p.x = q.x) (hy : p.y = q.y) : containsB b p = containsB b q := by
  simp [containsB, hx, hy]

/-- Two rectangles with a common point intersect (closed-interval test). -/
theorem intersectsB_of_mem {a b : Bnds} {p : Pt}
    (ha : containsB a p = true) (hb : containsB b p = true) :
    intersectsB a b = true := by
  rw [containsB_iff] at ha hb
  rw [intersectsB_iff]
  obtain ⟨h1, h2, h3, h4⟩ := ha
  obtain ⟨h5, h6, h7, h8⟩ := hb
  exact ⟨by linarith, by linarith, by linarith, by linarith⟩

/-- `Node` from the source.  In Go a node carries `Children [4]*Node` which
is either all-`nil` (leaf) or all-set (internal, created by `SubDivide`);
the code distinguishes the two states by `Children[0] != nil`, and clears
`Points` when subdividing, so the states are modelled as two constructors. -/
inductive Node where
  | leaf (bounds : Bnds) (cap : ℤ) (pts : List Pt)
  | internal (bounds : Bnds) (cap : ℤ) (c0 c1 c2 c3 : Node)
deriving DecidableEq

/-- The `Bounds` field of a node. -/
def Node.bnds : Node → Bnds
  | .leaf b _ _ => b
  | .internal b _ _ _ _ _ => b

/-- The `Capacity` field of a node. -/
def Node.capField : Node → ℤ
  | .leaf _ c _ => c
  | .internal _ c _ _ _ _ => c

/-- All points stored in the subtree (leaf lists, in NW,NE,SW,SE order). -/
def allPts : Node → List Pt
  | .leaf _ _ pts => pts
  | .internal _ _ c0 c1 c2 c3 => allPts c0 ++ allPts c1 ++ allPts c2 ++ allPts c3

/-- The multiset of stored points. -/
def pointsM (n : Node) : Multiset Pt := (allPts n : Multiset Pt)

/-- `SearchTree` from the source: prune on `Intersects`, recurse into all
four children of an internal node, filter a leaf's points by
`searchArea.Contains`.  The Go version appends to an accumulator passed by
pointer; appending child results in order `0,1,2,3` yields the
concatenation below. -/
def searchTree : Node → Bnds → List Pt
  | .leaf b _ pts, area =>
      if intersectsB b area then pts.filter (fun p => containsB area p) else []
  | .internal b _ c0 c1 c2 c3, area =>
      if intersectsB b area then
        searchTree c0 area ++ searchTree c1 area ++
          searchTree c2 area ++ searchTree c3 area
      else []

/-- Coordinate-equality test used by `RemoveNode`:
`exist.X == point.X && exist.Y == point.Y` (payload ignored). -/
def sameXY (point q : Pt) : Bool :=
  decide (q.x = point.x) && decide (q.y = point.y)

/-- The swap-with-last-and-truncate deletion used by `RemoveNode`:
`n.Points[i] = n.Points[len-1]; n.Points = n.Points[:len-1]`. -/
def swapRemove (pts : List Pt) (i : Nat) : List Pt :=
  (pts.set i (pts.getLastD ⟨0, 0, 0⟩)).dropLast

/-- Index of the first stored point with matching coordinates, as found by
the `for i, exist := range n.Points` loop of `RemoveNode`. -/
def findMatchIdx (p : Pt) : List Pt → Option Nat
  | [] => none
  | q :: qs => if sameXY p q then some 0 else (findMatchIdx p qs).map (· + 1)

/-- The leaf branch of `RemoveNode`: find the first stored point with
matching coordinates and swap-remove it. -/
def removeFromLeaf (pts : List Pt) (p : Pt) : List Pt × Bool :=
  match findMatchIdx p pts with
  | some i => (swapRemove pts i, true)
  | none => (pts, false)

/-- `RemoveNode` from the source.  Returns the updated node together with
the boolean result; the Go version mutates the receiver in place. -/
def removeNode : Node → Pt → Node × Bool
  | .leaf b c pts, p =>
      if containsB b p then
        let r := removeFromLeaf pts p
        (.leaf b c r.1, r.2)
      else (.leaf b c pts, false)
  | .internal b c c0 c1 c2 c3, p =>
      if containsB b p then
        match removeNode c0 p with
        | (c0', true) => (.internal b c c0' c1 c2 c3, true)
        | (c0', false) =>
          match removeNode c1 p with
          | (c1', true) => (.internal b c c0' c1' c2 c3, true)
          | (c1', false) =>
            match removeNode c2 p with
            | (c2', true) => (.internal b c c0' c1' c2' c3, true)
            | (c2', false) =>
              match removeNode c3 p with
              | (c3', r3) => (.internal b c c0' c1' c2' c3', r3)
      else (.internal b c c0 c1 c2 c3, false)

/-- Quadrant bounds produced by `SubDivide` (NW child):
origin `(x, y)`, size `(w/2, h/2)`. -/
def nwB (b : Bnds) : Bnds := ⟨b.x, b.y, b.width / 2, b.height / 2⟩

/-- NE child bounds: origin `(x + w/2, y)`. -/
def neB (b : Bnds) : Bnds := ⟨b.x + b.width / 2, b.y, b.width / 2, b.height / 2⟩

/-- SW child bounds: origin `(x, y + h/2)`. -/
def swB (b : Bnds) : Bnds := ⟨b.x, b.y + b.height / 2, b.width / 2, b.height / 2⟩

/-- SE child bounds: origin `(x + w/2, y + h/2)`. -/
def seB (b : Bnds) : Bnds :=
  ⟨b.x + b.width / 2, b.y + b.height / 2, b.width / 2, b.height / 2⟩

/-- The `for i := 0; i < 4; i++ { if n.Children[i].InsertNode(point) ... }`
loop shared by `InsertNode` and `SubDivide`: try the children in order
NW,NE,SW,SE with the given inserter, stopping at the first success.  A
child that fails keeps whatever state the recursive call left it in, as in
the Go code, where the child is mutated in place. -/
def insert4 (ins : Node → Pt → Option (Node × Bool)) (c0 c1 c2 c3 : Node)
    (p : Pt) : Option ((Node × Node × Node × Node) × Bool) :=
  (ins c0 p).bind fun r0 =>
    if r0.2 then some ((r0.1, c1, c2, c3), true)
    else
      (ins c1 p).bind fun r1 =>
        if r1.2 then some ((r0.1, r1.1, c2, c3), true)
        else
          (ins c2 p).bind fun r2 =>
            if r2.2 then some ((r0.1, r1.1, r2.1, c3), true)
            else
              (ins c3 p).bind fun r3 =>
                some ((r0.1, r1.1, r2.1, r3.1), r3.2)

/-- The re-insertion loop of `SubDivide`:
`for _, p := range n.Points { for i ... { if Children[i].InsertNode(p) break } }`.
The boolean result of each attempt is discarded, exactly as in the source
(a point that no child accepts is silently dropped). -/
def reinsert4 (ins : Node → Pt → Option (Node × Bool)) :
    Node × Node × Node × Node → List Pt → Option (Node × Node × Node × Node)
  | cs, [] => some cs
  | (c0, c1, c2, c3), p :: ps =>
      (insert4 ins c0 c1 c2 c3 p).bind fun r =>
        reinsert4 ins r.1 ps

/-- `SubDivide` from the source: allocate the four quadrant children, each
inheriting `Capacity`, re-insert every stored point into the first
accepting child, then clear the node's own point list (the caller
re-assembles the internal node from the returned children). -/
def subDivide (ins : Node → Pt → Option (Node × Bool)) (b : Bnds) (cap : ℤ)
    (pts : List Pt) : Option (Node × Node × Node × Node) :=
  reinsert4 ins
    (.leaf (nwB b) cap [], .leaf (neB b) cap [],
      .leaf (swB b) cap [], .leaf (seB b) cap []) pts

/-- `InsertNode` from the source, indexed by fuel (`none` = the
computation did not finish within `fuel` recursion levels):
reject if outside bounds; if internal, recurse into the first accepting
child; if a leaf with room (`len(Points) < Capacity`), append; otherwise
subdivide and recurse into the children. -/
def insertNode : Nat → Node → Pt → Option (Node × Bool)
  | 0, _, _ => none
  | fuel + 1, .leaf b cap pts, p =>
      if containsB b p then
        if (pts.length : ℤ) < cap then some (.leaf b cap (pts ++ [p]), true)
        else
          (subDivide (insertNode fuel) b cap pts).bind fun cs =>
            (insert4 (insertNode fuel) cs.1 cs.2.1 cs.2.2.1 cs.2.2.2 p).bind
              fun r =>
                some (.internal b cap r.1.1 r.1.2.1 r.1.2.2.1 r.1.2.2.2, r.2)
      else some (.leaf b cap pts, false)
  | fuel + 1, .internal b cap c0 c1 c2 c3, p =>
      if containsB b p then
        (insert4 (insertNode fuel) c0 c1 c2 c3 p).bind fun r =>
          some (.internal b cap r.1.1 r.1.2.1 r.1.2.2.1 r.1.2.2.2, r.2)
      else some (.internal b cap c0 c1 c2 c3, false)

/-- `QuadTree.Update` from the source: reject if the new point is outside
the root's bounds; otherwise remove the old point, and if that succeeded
insert the new one, re-inserting the old point if the insertion failed.
The `RWMutex` makes the whole sequence one critical section, so it is
modelled as a single function on the root node. -/
def qtUpdate (fuel : Nat) (root : Node) (oldPoint newPoint : Pt) :
    Option (Node × Bool) :=
  if containsB root.bnds newPoint then
    match removeNode root oldPoint with
    | (t1, true) =>
        (insertNode fuel t1 newPoint).bind fun r =>
          if r.2 then some (r.1, true)
          else
            (insertNode fuel r.1 oldPoint).bind fun r' => some (r'.1, false)
    | (t1, false) => some (t1, false)
  else some (root, false)

/-- Squared Euclidean distance.  The source's `Distance` is
`math.Sqrt(dx*dx+dy*dy)`; distances are only ever compared with `>` (in
`sortByDistance`), and the square root is strictly monotone on
non-negative reals, so comparisons of the squared distance coincide with
comparisons of the source's Euclidean distance. -/
def dist2 (p1 p2 : Pt) : ℚ :=
  (p2.x - p1.x) * (p2.x - p1.x) + (p2.y - p1.y) * (p2.y - p1.y)

/-- `PointWithDistance` from the source (with the squared distance, see
`dist2`). -/
structure PD where
  point : Pt
  dist : ℚ
deriving DecidableEq

/-- One step of the insertion sort of `sortByDistance`: the Go inner loop
shifts elements right while `points[j].Distance > key.Distance`, which on
the already-sorted prefix places `key` before the first element strictly
farther than it. -/
def insertPD (key : PD) : List PD → List PD
  | [] => [key]
  | y :: ys => if y.dist > key.dist then key :: y :: ys else y :: insertPD key ys

/-- `sortByDistance` from the source: in-place insertion sort over the
distance key, processing indices `1..n-1` left to right. -/
def sortByDistance (points : List PD) : List PD :=
  points.foldl (fun acc key => insertPD key acc) []

/-- Decorate candidate points with their distance from the target, as in
the `pointsWithDist` construction of `KNearest`. -/
def withDist (target : Pt) (l : List Pt) : List PD :=
  l.map fun p => ⟨p, dist2 target p⟩

/-- `maxPoints := k * 10; if maxPoints > 100000 { maxPoints = 100000 }`. -/
def knnMaxPoints (k : ℤ) : ℤ :=
  if k * 10 > 100000 then 100000 else k * 10

/-- `maxRadius := math.Max(w, h) * 2` over the root's bounds. -/
def knnMaxRadius (root : Node) : ℚ :=
  max root.bnds.width root.bnds.height * 2

/-- One probe of the expanding-radius loop: search the square of
half-width `r` centred on the target. -/
def knnSearchAt (root : Node) (target : Pt) (r : ℚ) : List Pt :=
  searchTree root ⟨target.x - r, target.y - r, r * 2, r * 2⟩

/-- Number of iterations of the expanding-radius loop: the radii probed
are `10 * 2^i` for every `i` with `10 * 2^i ≤ maxRadius` (the loop starts
at `searchRadius = 10.0`, runs `for searchRadius <= maxRadius` and
doubles the radius at the end of each iteration). -/
def numRadii (maxR : ℚ) : Nat :=
  if maxR < 10 then 0 else Nat.log 2 ⌊maxR / 10⌋.toNat + 1

/-- The list of radii probed by the expanding-radius loop, in order. -/
def radiiList (maxR : ℚ) : List ℚ :=
  (List.range (numRadii maxR)).map fun i => 10 * 2 ^ i

/-- The body of the expanding-radius loop of `KNearest`.  `res` is the
`results` slice from the previous iteration (initially `nil`); each
iteration re-runs the search from scratch and stops once
`len(results) >= k`, or the radius has reached `maxRadius` (here: the end
of the radius list), or `len(results) > maxPoints`. -/
def knnProbe (root : Node) (target : Pt) (k maxPts : ℤ) :
    List ℚ → List Pt → List Pt
  | [], res => res
  | r :: rs, _ =>
      let found := knnSearchAt root target r
      if (found.length : ℤ) ≥ k then found
      else if (found.length : ℤ) > maxPts then found
      else knnProbe root target k maxPts rs found

/-- The candidate set produced by the expanding-radius loop. -/
def knnCandidates (root : Node) (target : Pt) (k : ℤ) : List Pt :=
  knnProbe root target k (knnMaxPoints k) (radiiList (knnMaxRadius root)) []

/-- `QuadTree.KNearest` from the source: empty for `k <= 0`; run the
expanding-radius probe; empty if it produced no candidates; otherwise
sort the candidates by distance from the target, truncate to the first
`k`, and strip the distances. -/
def kNearest (root : Node) (target : Pt) (k : ℤ) : List Pt :=
  if k ≤ 0 then []
  else
    let cands := knnCandidates root target k
    if cands.isEmpty then []
    else ((sortByDistance (withDist target cands)).take k.toNat).map PD.point

/-! ## Invariants and reachable states -/

/-- Capacity invariant: every node carries the creation-time capacity `c`
and every leaf holds at most `c` points. -/
def capOk (c : ℤ) : Node → Prop
  | .leaf _ cp pts => cp = c ∧ (pts.length : ℤ) ≤ c
  | .internal _ cp c0 c1 c2 c3 =>
      cp = c ∧ capOk c c0 ∧ capOk c c1 ∧ capOk c c2 ∧ capOk c c3

/-- Containment invariant: every point stored under a node lies within
that node's bounds. -/
def InB : Node → Prop
  | .leaf b _ pts => ∀ q ∈ pts, containsB b q = true
  | .internal b _ c0 c1 c2 c3 =>
      InB c0 ∧ InB c1 ∧ InB c2 ∧ InB c3 ∧
        ∀ q ∈ allPts c0 ++ allPts c1 ++ allPts c2 ++ allPts c3,
          containsB b q = true

/-- Structure invariant: the four children of an internal node carry
exactly the quadrant bounds produced by `SubDivide`. -/
def quadOk : Node → Prop
  | .leaf _ _ _ => True
  | .internal b _ c0 c1 c2 c3 =>
      c0.bnds = nwB b ∧ c1.bnds = neB b ∧ c2.bnds = swB b ∧ c3.bnds = seB b ∧
        quadOk c0 ∧ quadOk c1 ∧ quadOk c2 ∧ quadOk c3

/-- States of a tree with creation bounds `b` and capacity `c` reachable
through the public mutating API (`Insert`, `Remove`, `Update`); the
creation contract of §3/§6 of the spec fixes a non-negative extent and
capacity.  A mutating call that does not terminate produces no new
state, so the `insert`/`update` constructors require the fuel-indexed
computation to have finished. -/
inductive Reach (b : Bnds) (c : ℤ) : Node → Prop where
  | init : 0 ≤ b.width → 0 ≤ b.height → 0 ≤ c → Reach b c (.leaf b c [])
  | insert {t t' : Node} {p : Pt} {fuel : Nat} {r : Bool} :
      Reach b c t → insertNode fuel t p = some (t', r) → Reach b c t'
  | remove {t : Node} (p : Pt) : Reach b c t → Reach b c (removeNode t p).1
  | update {t t' : Node} {o n : Pt} {fuel : Nat} {r : Bool} :
      Reach b c t → qtUpdate fuel t o n = some (t', r) → Reach b c t'

theorem InB.mem_bnds {t : Node} (h : InB t) {q : Pt} (hq : q ∈ allPts t) :
    containsB t.bnds q = true := by
  cases t with
  | leaf b c pts => exact h q hq
  | internal b c c0 c1 c2 c3 => exact h.2.2.2.2 q hq

/-- Every point of the parent rectangle lies in at least one of the four
quadrant rectangles (exact rational arithmetic: `w/2 + w/2 = w`). -/
theorem quadrant_cover {b : Bnds} {p : Pt} (h : containsB b p = true) :
    containsB (nwB b) p = true ∨ containsB (neB b) p = true ∨
      containsB (swB b) p = true ∨ containsB (seB b) p = true := by
  rw [containsB_iff] at h
  obtain ⟨h1, h2, h3, h4⟩ := h
  rcases le_or_lt p.x (b.x + b.width / 2) with hx | hx <;>
    rcases le_or_lt p.y (b.y + b.height / 2) with hy | hy
  · exact Or.inl (containsB_iff.mpr ⟨h1, by simpa [nwB] using hx,
      by simpa [nwB] using hy, h4⟩)
  · refine Or.inr (Or.inr (Or.inl (containsB_iff.mpr ⟨h1,
      by simpa [swB] using hx, ?_, ?_⟩)))
    · simp only [swB]; linarith
    · simp only [swB]; linarith
  · refine Or.inr (Or.inl (containsB_iff.mpr ⟨?_, ?_, ?_, h4⟩))
    · simp only [neB]; linarith
    · simp only [neB]; linarith
    · simpa [neB] using hy
  · refine Or.inr (Or.inr (Or.inr (containsB_iff.mpr ⟨?_, ?_, ?_, ?_⟩)))
    · simp only [seB]; linarith
    · simp only [seB]; linarith
    · simp only [seB]; linarith
    · simp only [seB]; linarith

/-! ## Lemmas about `RemoveNode` -/

theorem sameXY_iff {p q : Pt} : sameXY p q = true ↔ q.x = p.x ∧ q.y = p.y := by
  simp [sameXY]

theorem findMatchIdx_some {p : Pt} :
    ∀ {pts : List Pt} {i : Nat}, findMatchIdx p pts = some i →
      ∃ h : i < pts.length, sameXY p (pts.get ⟨i, h⟩) = true := by
  intro pts
  induction pts with
  | nil => intro i h; simp [findMatchIdx] at h
  | cons q qs ih =>
      intro i h
      by_cases hq : sameXY p q = true
      · simp [findMatchIdx, hq] at h
        subst h
        exact ⟨by simp, hq⟩
      · simp [findMatchIdx, hq] at h
        obtain ⟨j, hj, rfl⟩ := h
        obtain ⟨hlt, hs⟩ := ih hj
        exact ⟨by simpa using hlt, hs⟩

theorem findMatchIdx_none {p : Pt} :
    ∀ {pts : List Pt}, findMatchIdx p pts = none →
      ∀ q ∈ pts, sameXY p q = false := by
  intro pts
  induction pts with
  | nil => intro _ q hq; simp at hq
  | cons x xs ih =>
      intro h q hq
      by_cases hx : sameXY p x = true
      · simp [findMatchIdx, hx] at h
      · simp [findMatchIdx, hx] at h
        rcases List.mem_cons.mp hq with h1 | h1
        · subst h1; simpa using hx
        · exact ih h q h1

theorem findMatchIdx_isSome {p : Pt} {pts : List Pt} {q : Pt}
    (hq : q ∈ pts) (hs : sameXY p q = true) :
    ∃ i, findMatchIdx p pts = some i := by
  cases h : findMatchIdx p pts with
  | some i => exact ⟨i, rfl⟩
  | none => exact absurd hs (by simp [findMatchIdx_none h q hq])

theorem getLastD_eq_getLast {l : List Pt} (h : l ≠ []) (d : Pt) :
    l.getLastD d = l.getLast h := by
  rw [List.getLastD_eq_getLast?, List.getLast?_eq_getLast l h]
  rfl

theorem length_swapRemove {pts : List Pt} {i : Nat} :
    (swapRemove pts i).length = pts.length - 1 := by
  simp [swapRemove]

theorem set_coe :
    ∀ (l : List Pt) (i : Nat) (h : i < l.length) (a : Pt),
      ((l.set i a : List Pt) : Multiset Pt) =
        a ::ₘ (l : Multiset Pt).erase (l.get ⟨i, h⟩) := by
  intro l
  induction l with
  | nil => intro i h; simp at h
  | cons x xs ih =>
      intro i h a
      cases i with
      | zero => simp [List.set]
      | succ j =>
          have hj : j < xs.length := by simpa using h
          have hx : ((x :: xs).set (j + 1) a : List Pt) = x :: xs.set j a :=
            rfl
          have hget : (x :: xs : List Pt).get ⟨j + 1, h⟩ =
              xs.get ⟨j, hj⟩ := rfl
          rw [hx, hget]
          have hcoe : ((x :: xs.set j a : List Pt) : Multiset Pt) =
              x ::ₘ ((xs.set j a : List Pt) : Multiset Pt) := by simp
          rw [hcoe, ih j hj a]
          have hcoe2 : ((x :: xs : List Pt) : Multiset Pt) =
              x ::ₘ (xs : Multiset Pt) := by simp
          rw [hcoe2]
          by_cases hxq : xs.get ⟨j, hj⟩ = x
          · rw [hxq, Multiset.erase_cons_head, Multiset.cons_swap]
            congr 1
            exact Multiset.cons_erase
              (show x ∈ (xs : Multiset Pt) by
                rw [← hxq]; simp only [Multiset.mem_coe]
                exact List.get_mem xs j hj)
          · rw [Multiset.erase_cons_tail _ (by simpa using Ne.symm hxq)]
            exact Multiset.cons_swap _ _ _

theorem getLast_set {l : List Pt} {i : Nat} (hne : l ≠ [])
    (hne2 : l.set i (l.getLast hne) ≠ []) :
    (l.set i (l.getLast hne)).getLast hne2 = l.getLast hne := by
  rw [List.getLast_eq_getElem]
  rw [List.getElem_set]
  split
  · rfl
  · simp only [List.length_set]
    exact (List.getLast_eq_getElem l hne).symm

theorem swapRemove_coe (pts : List Pt) (i : Nat) (h : i < pts.length) :
    ((swapRemove pts i : List Pt) : Multiset Pt) =
      (pts : Multiset Pt).erase (pts.get ⟨i, h⟩) := by
  have hne : pts ≠ [] := by
    intro hnil; rw [hnil] at h; simp at h
  have hlastD : pts.getLastD ⟨0, 0, 0⟩ = pts.getLast hne :=
    getLastD_eq_getLast hne _
  have hsw : swapRemove pts i = (pts.set i (pts.getLast hne)).dropLast := by
    unfold swapRemove
    rw [hlastD]
  have hne2 : pts.set i (pts.getLast hne) ≠ [] := by
    intro hnil
    have := congrArg List.length hnil
    simp only [List.length_set, List.length_nil] at this
    rw [this] at h; simp at h
  have hdec := List.dropLast_append_getLast hne2
  have hcoe : ((pts.set i (pts.getLast hne) : List Pt) : Multiset Pt) =
      (((pts.set i (pts.getLast hne)).dropLast : List Pt) : Multiset Pt) +
        {(pts.set i (pts.getLast hne)).getLast hne2} := by
    conv_lhs => rw [← hdec]
    rw [← Multiset.coe_add]
    simp
  rw [getLast_set hne hne2] at hcoe
  rw [set_coe pts i h (pts.getLast hne)] at hcoe
  have hmain : ((swapRemove pts i : List Pt) : Multiset Pt) +
      {pts.getLast hne} =
      (pts : Multiset Pt).erase (pts.get ⟨i, h⟩) + {pts.getLast hne} := by
    rw [hsw, ← hcoe]
    rw [show (pts : Multiset Pt).erase (pts.get ⟨i, h⟩) + {pts.getLast hne} =
        pts.getLast hne ::ₘ (pts : Multiset Pt).erase (pts.get ⟨i, h⟩) by
      rw [add_comm]; simp]
  exact add_right_cancel hmain

theorem removeFromLeaf_true {pts : List Pt} {p : Pt} {pts' : List Pt}
    (h : removeFromLeaf pts p = (pts', true)) :
    ∃ q ∈ pts, sameXY p q = true ∧
      (pts' : Multiset Pt) = (pts : Multiset Pt).erase q := by
  unfold removeFromLeaf at h
  cases hf : findMatchIdx p pts with
  | none => rw [hf] at h; simp at h
  | some i =>
      rw [hf] at h
      obtain ⟨hlt, hs⟩ := findMatchIdx_some hf
      refine ⟨pts.get ⟨i, hlt⟩, List.get_mem pts i hlt, hs, ?_⟩
      have := swapRemove_coe pts i hlt
      simp only [Prod.mk.injEq] at h
      rw [← h.1, this]

theorem removeFromLeaf_false {pts : List Pt} {p : Pt} {pts' : List Pt}
    (h : removeFromLeaf pts p = (pts', false)) :
    pts' = pts ∧ ∀ q ∈ pts, sameXY p q = false := by
  unfold removeFromLeaf at h
  cases hf : findMatchIdx p pts with
  | none =>
      rw [hf] at h
      simp only [Prod.mk.injEq] at h
      exact ⟨h.1.symm, findMatchIdx_none hf⟩
  | some i => rw [hf] at h; simp at h

theorem removeFromLeaf_found {pts : List Pt} {p q : Pt}
    (hq : q ∈ pts) (hs : sameXY p q = true) :
    (removeFromLeaf pts p).2 = true := by
  obtain ⟨i, hi⟩ := findMatchIdx_isSome hq hs
  simp [removeFromLeaf, hi]

@[simp]
theorem pointsM_leaf {b : Bnds} {c : ℤ} {pts : List Pt} :
    pointsM (.leaf b c pts) = (pts : Multiset Pt) := rfl

@[simp]
theorem pointsM_internal {b : Bnds} {c : ℤ} {c0 c1 c2 c3 : Node} :
    pointsM (.internal b c c0 c1 c2 c3) =
      pointsM c0 + (pointsM c1 + (pointsM c2 + pointsM c3)) := by
  simp [pointsM, allPts, ← Multiset.coe_add]

theorem removeNode_bnds (t : Node) (p : Pt) :
    (removeNode t p).1.bnds = t.bnds := by
  induction t with
  | leaf b c pts =>
      cases hc : containsB b p <;>
        · rcases hrf : removeFromLeaf pts p with ⟨pts', r⟩
          simp [removeNode, hc, hrf, Node.bnds]
  | internal b c c0 c1 c2 c3 ih0 ih1 ih2 ih3 =>
      cases hc : containsB b p
      · simp [removeNode, hc, Node.bnds]
      · rcases h0 : removeNode c0 p with ⟨c0', r0⟩
        cases r0
        · rcases h1 : removeNode c1 p with ⟨c1', r1⟩
          cases r1
          · rcases h2 : removeNode c2 p with ⟨c2', r2⟩
            cases r2
            · rcases h3 : removeNode c3 p with ⟨c3', r3⟩
              simp [removeNode, hc, h0, h1, h2, h3, Node.bnds]
            · simp [removeNode, hc, h0, h1, h2, Node.bnds]
          · simp [removeNode, hc, h0, h1, Node.bnds]
        · simp [removeNode, hc, h0, Node.bnds]

theorem removeNode_false (t : Node) (p : Pt) :
    (removeNode t p).2 = false → (removeNode t p).1 = t := by
  induction t with
  | leaf b c pts =>
      intro h
      cases hc : containsB b p
      · simp [removeNode, hc]
      · rcases hrf : removeFromLeaf pts p with ⟨pts', r⟩
        cases r
        · have := (removeFromLeaf_false hrf).1
          simp [removeNode, hc, hrf, this]
        · simp [removeNode, hc, hrf] at h
  | internal b c c0 c1 c2 c3 ih0 ih1 ih2 ih3 =>
      intro h
      cases hc : containsB b p
      · simp [removeNode, hc]
      · rcases h0 : removeNode c0 p with ⟨c0', r0⟩
        cases r0
        · rcases h1 : removeNode c1 p with ⟨c1', r1⟩
          cases r1
          · rcases h2 : removeNode c2 p with ⟨c2', r2⟩
            cases r2
            · rcases h3 : removeNode c3 p with ⟨c3', r3⟩
              cases r3
              · have e0 : c0' = c0 := by
                  have := ih0; rw [h0] at this; exact this rfl
                have e1 : c1' = c1 := by
                  have := ih1; rw [h1] at this; exact this rfl
                have e2 : c2' = c2 := by
                  have := ih2; rw [h2] at this; exact this rfl
                have e3 : c3' = c3 := by
                  have := ih3; rw [h3] at this; exact this rfl
                simp [removeNode, hc, h0, h1, h2, h3, e0, e1, e2, e3]
              · simp [removeNode, hc, h0, h1, h2, h3] at h
            · simp [removeNode, hc, h0, h1, h2] at h
          · simp [removeNode, hc, h0, h1] at h
        · simp [removeNode, hc, h0] at h

theorem removeNode_true (t : Node) (p : Pt) :
    (removeNode t p).2 = true →
      ∃ q ∈ allPts t, sameXY p q = true ∧
        pointsM (removeNode t p).1 = (pointsM t).erase q := by
  induction t with
  | leaf b c pts =>
      intro h
      cases hc : containsB b p
      · simp [removeNode, hc] at h
      · rcases hrf : removeFromLeaf pts p with ⟨pts', r⟩
        cases r
        · simp [removeNode, hc, hrf] at h
        · obtain ⟨q, hq, hs, hm⟩ := removeFromLeaf_true hrf
          exact ⟨q, by simpa [allPts] using hq, hs, by
            simp [removeNode, hc, hrf, hm]⟩
  | internal b c c0 c1 c2 c3 ih0 ih1 ih2 ih3 =>
      intro h
      cases hc : containsB b p
      · simp [removeNode, hc] at h
      · rcases h0 : removeNode c0 p with ⟨c0', r0⟩
        cases r0
        · have e0 : c0' = c0 := by
            have := removeNode_false c0 p; rw [h0] at this; exact this rfl
          rcases h1 : removeNode c1 p with ⟨c1', r1⟩
          cases r1
          · have e1 : c1' = c1 := by
              have := removeNode_false c1 p; rw [h1] at this; exact this rfl
            rcases h2 : removeNode c2 p with ⟨c2', r2⟩
            cases r2
            · have e2 : c2' = c2 := by
                have := removeNode_false c2 p; rw [h2] at this; exact this rfl
              rcases h3 : removeNode c3 p with ⟨c3', r3⟩
              cases r3
              · simp [removeNode, hc, h0, h1, h2, h3] at h
              · obtain ⟨q, hq, hs, hm⟩ := by
                  have := ih3; rw [h3] at this; exact this rfl
                refine ⟨q, by simp [allPts, hq], hs, ?_⟩
                have hqm : q ∈ pointsM c3 := by
                  simpa [pointsM] using hq
                have hm3 : pointsM c3' = (pointsM c3).erase q := hm
                have hrw : removeNode (Node.internal b c c0 c1 c2 c3) p =
                    (Node.internal b c c0' c1' c2' c3', true) := by
                  simp [removeNode, hc, h0, h1, h2, h3]
                rw [hrw]
                simp only [pointsM_internal, e0, e1, e2, hm3]
                rw [Multiset.erase_add_right_pos _ (by
                    simp [hqm] : q ∈ pointsM c1 + (pointsM c2 + pointsM c3)),
                  Multiset.erase_add_right_pos _ (by
                    simp [hqm] : q ∈ pointsM c2 + pointsM c3),
                  Multiset.erase_add_right_pos _ hqm]
            · obtain ⟨q, hq, hs, hm⟩ := by
                have := ih2; rw [h2] at this; exact this rfl
              refine ⟨q, by simp [allPts, hq], hs, ?_⟩
              have hqm : q ∈ pointsM c2 := by simpa [pointsM] using hq
              have hm2 : pointsM c2' = (pointsM c2).erase q := hm
              have hrw : removeNode (Node.internal b c c0 c1 c2 c3) p =
                  (Node.internal b c c0' c1' c2' c3, true) := by
                simp [removeNode, hc, h0, h1, h2]
              rw [hrw]
              simp only [pointsM_internal, e0, e1, hm2]
              rw [Multiset.erase_add_right_pos _ (by
                  simp [hqm] : q ∈ pointsM c1 + (pointsM c2 + pointsM c3)),
                Multiset.erase_add_right_pos _ (by
                  simp [hqm] : q ∈ pointsM c2 + pointsM c3),
                Multiset.erase_add_left_pos _ hqm]
          · obtain ⟨q, hq, hs, hm⟩ := by
              have := ih1; rw [h1] at this; exact this rfl
            refine ⟨q, by simp [allPts, hq], hs, ?_⟩
            have hqm : q ∈ pointsM c1 := by simpa [pointsM] using hq
            have hm1 : pointsM c1' = (pointsM c1).erase q := hm
            have hrw : removeNode (Node.internal b c c0 c1 c2 c3) p =
                (Node.internal b c c0' c1' c2 c3, true) := by
              simp [removeNode, hc, h0, h1]
            rw [hrw]
            simp only [pointsM_internal, e0, hm1]
            rw [Multiset.erase_add_right_pos _ (by
                simp [hqm] : q ∈ pointsM c1 + (pointsM c2 + pointsM c3)),
              Multiset.erase_add_left_pos _ hqm]
        · obtain ⟨q, hq, hs, hm⟩ := by
            have := ih0; rw [h0] at this; exact this rfl
          refine ⟨q, by simp [allPts, hq], hs, ?_⟩
          have hqm : q ∈ pointsM c0 := by simpa [pointsM] using hq
          have hm0 : pointsM c0' = (pointsM c0).erase q := hm
          have hrw : removeNode (Node.internal b c c0 c1 c2 c3) p =
              (Node.internal b c c0' c1 c2 c3, true) := by
            simp [removeNode, hc, h0]
          rw [hrw]
          simp only [pointsM_internal, hm0]
          rw [Multiset.erase_add_left_pos _ hqm]

theorem removeNode_mem_subset (t : Node) (p : Pt) :
    ∀ q' ∈ allPts (removeNode t p).1, q' ∈ allPts t := by
  intro q' hq'
  rcases hr : removeNode t p with ⟨t', r⟩
  rw [hr] at hq'
  cases r
  · have := removeNode_false t p
    rw [hr] at this
    rw [this rfl] at hq'
    exact hq'
  · have := removeNode_true t p
    rw [hr] at this
    obtain ⟨q, hqmem, _, hm⟩ := this rfl
    have hq'' : q' ∈ pointsM t' := by simpa [pointsM] using hq'
    rw [hm] at hq''
    have := Multiset.mem_of_mem_erase hq''
    simpa [pointsM] using this

theorem removeNode_found (p q : Pt) (hs : sameXY p q = true) :
    ∀ t : Node, InB t → q ∈ allPts t → (removeNode t p).2 = true := by
  have hx : q.x = p.x := (sameXY_iff.mp hs).1
  have hy : q.y = p.y := (sameXY_iff.mp hs).2
  intro t
  induction t with
  | leaf b c pts =>
      intro hib hq
      have hq2 : q ∈ pts := hq
      have hc : containsB b p = true := by
        rw [containsB_congr_coords hx.symm hy.symm]
        exact hib q hq2
      have hfound := removeFromLeaf_found hq2 hs
      rcases hrf : removeFromLeaf pts p with ⟨pts', r⟩
      rw [hrf] at hfound
      have hr : r = true := hfound
      subst hr
      simp [removeNode, hc, hrf]
  | internal b c c0 c1 c2 c3 ih0 ih1 ih2 ih3 =>
      intro hib hq
      obtain ⟨hi0, hi1, hi2, hi3, hall⟩ := hib
      have hc : containsB b p = true := by
        rw [containsB_congr_coords hx.symm hy.symm]
        exact hall q hq
      have hq' := hq
      simp only [allPts, List.mem_append] at hq'
      rcases hq' with ((hm0 | hm1) | hm2) | hm3
      · have h0t := ih0 hi0 hm0
        rcases h0 : removeNode c0 p with ⟨c0', r0⟩
        rw [h0] at h0t
        have hr : r0 = true := h0t
        subst hr
        simp [removeNode, hc, h0]
      · rcases h0 : removeNode c0 p with ⟨c0', r0⟩
        cases r0
        · have h1t := ih1 hi1 hm1
          rcases h1 : removeNode c1 p with ⟨c1', r1⟩
          rw [h1] at h1t
          have hr : r1 = true := h1t
          subst hr
          simp [removeNode, hc, h0, h1]
        · simp [removeNode, hc, h0]
      · rcases h0 : removeNode c0 p with ⟨c0', r0⟩
        cases r0
        · rcases h1 : removeNode c1 p with ⟨c1', r1⟩
          cases r1
          · have h2t := ih2 hi2 hm2
            rcases h2 : removeNode c2 p with ⟨c2', r2⟩
            rw [h2] at h2t
            have hr : r2 = true := h2t
            subst hr
            simp [removeNode, hc, h0, h1, h2]
          · simp [removeNode, hc, h0, h1]
        · simp [removeNode, hc, h0]
      · rcases h0 : removeNode c0 p with ⟨c0', r0⟩
        cases r0
        · rcases h1 : removeNode c1 p with ⟨c1', r1⟩
          cases r1
          · rcases h2 : removeNode c2 p with ⟨c2', r2⟩
            cases r2
            · have h3t := ih3 hi3 hm3
              rcases h3 : removeNode c3 p with ⟨c3', r3⟩
              rw [h3] at h3t
              have hr : r3 = true := h3t
              subst hr
              simp [removeNode, hc, h0, h1, h2, h3]
            · simp [removeNode, hc, h0, h1, h2]
          · simp [removeNode, hc, h0, h1]
        · simp [removeNode, hc, h0]

theorem removeNode_inv (c : ℤ) (t : Node) (p : Pt) (hcap : capOk c t)
    (hib : InB t) (hqd : quadOk t) :
    capOk c (removeNode t p).1 ∧ InB (removeNode t p).1 ∧
      quadOk (removeNode t p).1 := by
  induction t with
  | leaf b cp pts =>
      cases hc : containsB b p
      · simpa [removeNode, hc] using ⟨hcap, hib, hqd⟩
      · rcases hrf : removeFromLeaf pts p with ⟨pts', r⟩
        have hfacts : (∀ q' ∈ pts', q' ∈ pts) ∧ pts'.length ≤ pts.length := by
          cases r
          · rw [(removeFromLeaf_false hrf).1]
            exact ⟨fun _ h => h, le_refl _⟩
          · obtain ⟨q, _, _, hm⟩ := removeFromLeaf_true hrf
            constructor
            · intro q' hq'
              have : q' ∈ (pts' : Multiset Pt) := by simpa using hq'
              rw [hm] at this
              simpa using Multiset.mem_of_mem_erase this
            · have := Multiset.card_le_card
                (hm ▸ Multiset.erase_le q (pts : Multiset Pt))
              simpa using this
        refine ⟨?_, ?_, ?_⟩
        · simp only [removeNode, hc, hrf]
          exact ⟨hcap.1, le_trans (by exact_mod_cast hfacts.2) hcap.2⟩
        · simp only [removeNode, hc, hrf]
          intro q' hq'
          exact hib q' (hfacts.1 q' hq')
        · simp only [removeNode, hc, hrf]
          trivial
  | internal b cp c0 c1 c2 c3 ih0 ih1 ih2 ih3 =>
      obtain ⟨hcpEq, hk0, hk1, hk2, hk3⟩ := hcap
      obtain ⟨hi0, hi1, hi2, hi3, hall⟩ := hib
      obtain ⟨hb0, hb1, hb2, hb3, hq0, hq1, hq2, hq3⟩ := hqd
      have inv0 := ih0 hk0 hi0 hq0
      have inv1 := ih1 hk1 hi1 hq1
      have inv2 := ih2 hk2 hi2 hq2
      have inv3 := ih3 hk3 hi3 hq3
      have key : ∀ d0 d1 d2 d3 : Node,
          (d0 = c0 ∨ d0 = (removeNode c0 p).1) →
          (d1 = c1 ∨ d1 = (removeNode c1 p).1) →
          (d2 = c2 ∨ d2 = (removeNode c2 p).1) →
          (d3 = c3 ∨ d3 = (removeNode c3 p).1) →
          capOk c (.internal b cp d0 d1 d2 d3) ∧
            InB (.internal b cp d0 d1 d2 d3) ∧
            quadOk (.internal b cp d0 d1 d2 d3) := by
        rintro d0 d1 d2 d3 (rfl | rfl) (rfl | rfl) (rfl | rfl) (rfl | rfl) <;>
          refine ⟨⟨hcpEq, ?_, ?_, ?_, ?_⟩, ⟨?_, ?_, ?_, ?_, ?_⟩,
            ⟨?_, ?_, ?_, ?_, ?_, ?_, ?_, ?_⟩⟩ <;>
          first
            | exact hk0 | exact hk1 | exact hk2 | exact hk3
            | exact inv0.1 | exact inv1.1 | exact inv2.1 | exact inv3.1
            | exact hi0 | exact hi1 | exact hi2 | exact hi3
            | exact inv0.2.1 | exact inv1.2.1 | exact inv2.2.1
            | exact inv3.2.1
            | exact hb0 | exact hb1 | exact hb2 | exact hb3
            | exact (removeNode_bnds c0 p).trans hb0
            | exact (removeNode_bnds c1 p).trans hb1
            | exact (removeNode_bnds c2 p).trans hb2
            | exact (removeNode_bnds c3 p).trans hb3
            | exact hq0 | exact hq1 | exact hq2 | exact hq3
            | exact inv0.2.2 | exact inv1.2.2 | exact inv2.2.2
            | exact inv3.2.2
            | (intro q' hq'
               simp only [List.mem_append] at hq'
               apply hall
               simp only [List.mem_append]
               rcases hq' with ((hA | hB) | hC) | hD
               · exact Or.inl (Or.inl (Or.inl (by
                   first
                     | exact hA
                     | exact removeNode_mem_subset c0 p q' hA)))
               · exact Or.inl (Or.inl (Or.inr (by
                   first
                     | exact hB
                     | exact removeNode_mem_subset c1 p q' hB)))
               · exact Or.inl (Or.inr (by
                   first
                     | exact hC
                     | exact removeNode_mem_subset c2 p q' hC))
               · exact Or.inr (by
                   first
                     | exact hD
                     | exact removeNode_mem_subset c3 p q' hD))
      cases hc : containsB b p
      · simpa [removeNode, hc] using
          key c0 c1 c2 c3 (Or.inl rfl) (Or.inl rfl) (Or.inl rfl) (Or.inl rfl)
      · rcases h0 : removeNode c0 p with ⟨c0', r0⟩
        cases r0
        · rcases h1 : removeNode c1 p with ⟨c1', r1⟩
          cases r1
          · rcases h2 : removeNode c2 p with ⟨c2', r2⟩
            cases r2
            · rcases h3 : removeNode c3 p with ⟨c3', r3⟩
              have hrw : removeNode (Node.internal b cp c0 c1 c2 c3) p =
                  (Node.internal b cp c0' c1' c2' c3', r3) := by
                cases r3 <;> simp [removeNode, hc, h0, h1, h2, h3]
              rw [hrw]
              exact key c0' c1' c2' c3'
                (Or.inr (by rw [h0])) (Or.inr (by rw [h1]))
                (Or.inr (by rw [h2])) (Or.inr (by rw [h3]))
            · have hrw : removeNode (Node.internal b cp c0 c1 c2 c3) p =
                  (Node.internal b cp c0' c1' c2' c3, true) := by
                simp [removeNode, hc, h0, h1, h2]
              rw [hrw]
              exact key c0' c1' c2' c3
                (Or.inr (by rw [h0])) (Or.inr (by rw [h1]))
                (Or.inr (by rw [h2])) (Or.inl rfl)
          · have hrw : removeNode (Node.internal b cp c0 c1 c2 c3) p =
                (Node.internal b cp c0' c1' c2 c3, true) := by
              simp [removeNode, hc, h0, h1]
            rw [hrw]
            exact key c0' c1' c2 c3
              (Or.inr (by rw [h0])) (Or.inr (by rw [h1]))
              (Or.inl rfl) (Or.inl rfl)
        · have hrw : removeNode (Node.internal b cp c0 c1 c2 c3) p =
              (Node.internal b cp c0' c1 c2 c3, true) := by
            simp [removeNode, hc, h0]
          rw [hrw]
          exact key c0' c1 c2 c3
            (Or.inr (by rw [h0])) (Or.inl rfl) (Or.inl rfl) (Or.inl rfl)

/-! ## Lemmas about `SearchTree` -/

theorem searchTree_count (area : Bnds) (q : Pt) :
    ∀ t : Node, InB t →
      (searchTree t area).count q =
        if containsB area q = true then (allPts t).count q else 0 := by
  intro t
  induction t with
  | leaf b c pts =>
      intro hib
      cases hi : intersectsB b area
      · simp only [searchTree, hi, Bool.false_eq_true, if_false,
          List.count_nil]
        by_cases hcq : containsB area q = true
        · rw [if_pos hcq]
          symm
          rw [List.count_eq_zero]
          intro hmem
          have := intersectsB_of_mem (hib q hmem) hcq
          rw [this] at hi
          simp at hi
        · rw [if_neg hcq]
      · simp only [searchTree, hi, if_true]
        by_cases hcq : containsB area q = true
        · rw [if_pos hcq, List.count_filter hcq]
          rfl
        · rw [if_neg hcq]
          rw [List.count_eq_zero]
          intro hmem
          exact hcq (List.mem_filter.mp hmem).2
  | internal b c c0 c1 c2 c3 ih0 ih1 ih2 ih3 =>
      intro hib
      obtain ⟨hi0, hi1, hi2, hi3, hall⟩ := hib
      cases hi : intersectsB b area
      · simp only [searchTree, hi, Bool.false_eq_true, if_false,
          List.count_nil]
        by_cases hcq : containsB area q = true
        · rw [if_pos hcq]
          symm
          rw [List.count_eq_zero]
          intro hmem
          have := intersectsB_of_mem (hall q hmem) hcq
          rw [this] at hi
          simp at hi
        · rw [if_neg hcq]
      · simp only [searchTree, hi, if_true, allPts, List.count_append]
        rw [ih0 hi0, ih1 hi1, ih2 hi2, ih3 hi3]
        by_cases hcq : containsB area q = true <;> simp [hcq]

theorem searchTree_length_le (area : Bnds) :
    ∀ t : Node, (searchTree t area).length ≤ (allPts t).length := by
  intro t
  induction t with
  | leaf b c pts =>
      cases hi : intersectsB b area <;>
        simp [searchTree, hi, allPts]
      exact List.length_filter_le _ _
  | internal b c c0 c1 c2 c3 ih0 ih1 ih2 ih3 =>
      cases hi : intersectsB b area <;>
        simp [searchTree, hi, allPts]
      omega

/-- When the query area contains every point of the tree, `SearchTree`
returns exactly the stored multiset. -/
theorem searchTree_all (area : Bnds) (t : Node) (hib : InB t)
    (hcov : ∀ q ∈ allPts t, containsB area q = true) :
    ((searchTree t area : List Pt) : Multiset Pt) = pointsM t := by
  refine Multiset.ext.mpr fun q => ?_
  rw [show ((searchTree t area : List Pt) : Multiset Pt).count q =
      (searchTree t area).count q from Multiset.coe_count q _]
  rw [show (pointsM t).count q = (allPts t).count q from
    Multiset.coe_count q _]
  rw [searchTree_count area q t hib]
  by_cases hcq : containsB area q = true
  · rw [if_pos hcq]
  · rw [if_neg hcq]
    symm
    rw [List.count_eq_zero]
    intro hmem
    exact hcq (hcov q hmem)

/-! ## Lemmas about `InsertNode` and `SubDivide` -/

/-- Bundled invariants of a node. -/
def Inv (c : ℤ) (t : Node) : Prop := capOk c t ∧ InB t ∧ quadOk t

/-- Specification of one fuel level of `InsertNode`: on invariant-preserving
inputs, a finished call preserves the bounds and the invariants, a `true`
result adds exactly the inserted point to the stored multiset, and a
`false` result leaves the node unchanged and only occurs for a point
outside the node's bounds. -/
def InsSpec (c : ℤ) (ins : Node → Pt → Option (Node × Bool)) : Prop :=
  ∀ (t : Node) (p : Pt) (t' : Node) (r : Bool),
    Inv c t → ins t p = some (t', r) →
      t'.bnds = t.bnds ∧ Inv c t' ∧
        (r = true → pointsM t' = p ::ₘ pointsM t) ∧
        (r = false → t' = t ∧ containsB t.bnds p = false)

theorem insert4_spec {c : ℤ} {ins : Node → Pt → Option (Node × Bool)}
    (H : InsSpec c ins) {c0 c1 c2 c3 : Node} {p : Pt}
    {d0 d1 d2 d3 : Node} {r : Bool}
    (h0 : Inv c c0) (h1 : Inv c c1) (h2 : Inv c c2) (h3 : Inv c c3)
    (h : insert4 ins c0 c1 c2 c3 p = some ((d0, d1, d2, d3), r)) :
    (d0.bnds = c0.bnds ∧ Inv c d0) ∧ (d1.bnds = c1.bnds ∧ Inv c d1) ∧
      (d2.bnds = c2.bnds ∧ Inv c d2) ∧ (d3.bnds = c3.bnds ∧ Inv c d3) ∧
      (r = true →
        pointsM d0 + (pointsM d1 + (pointsM d2 + pointsM d3)) =
          p ::ₘ (pointsM c0 + (pointsM c1 + (pointsM c2 + pointsM c3)))) ∧
      (r = false →
        (d0 = c0 ∧ d1 = c1 ∧ d2 = c2 ∧ d3 = c3) ∧
          containsB c0.bnds p = false ∧ containsB c1.bnds p = false ∧
          containsB c2.bnds p = false ∧ containsB c3.bnds p = false) := by
  cases he0 : ins c0 p with
  | none => simp [insert4, he0] at h
  | some e0 =>
      obtain ⟨e0n, b0⟩ := e0
      have H0 := H c0 p e0n b0 h0 he0
      cases b0 with
      | true =>
          obtain ⟨⟨rfl, rfl, rfl, rfl⟩, rfl⟩ := by
            simpa [insert4, he0] using h
          refine ⟨⟨H0.1, H0.2.1⟩, ⟨rfl, h1⟩, ⟨rfl, h2⟩, ⟨rfl, h3⟩, ?_, ?_⟩
          · intro _
            rw [H0.2.2.1 rfl, Multiset.cons_add]
          · intro hrf; exact absurd hrf (by simp)
      | false =>
          obtain ⟨he0eq, hnc0⟩ := H0.2.2.2 rfl
          cases he1 : ins c1 p with
          | none => simp [insert4, he0, he1] at h
          | some e1 =>
              obtain ⟨e1n, b1⟩ := e1
              have H1 := H c1 p e1n b1 h1 he1
              cases b1 with
              | true =>
                  obtain ⟨⟨rfl, rfl, rfl, rfl⟩, rfl⟩ := by
                    simpa [insert4, he0, he1] using h
                  refine ⟨⟨he0eq ▸ rfl, H0.2.1⟩, ⟨H1.1, H1.2.1⟩, ⟨rfl, h2⟩,
                    ⟨rfl, h3⟩, ?_, ?_⟩
                  · intro _
                    rw [H1.2.2.1 rfl, he0eq, Multiset.cons_add,
                      Multiset.add_cons]
                  · intro hrf; exact absurd hrf (by simp)
              | false =>
                  obtain ⟨he1eq, hnc1⟩ := H1.2.2.2 rfl
                  cases he2 : ins c2 p with
                  | none => simp [insert4, he0, he1, he2] at h
                  | some e2 =>
                      obtain ⟨e2n, b2⟩ := e2
                      have H2 := H c2 p e2n b2 h2 he2
                      cases b2 with
                      | true =>
                          obtain ⟨⟨rfl, rfl, rfl, rfl⟩, rfl⟩ := by
                            simpa [insert4, he0, he1, he2] using h
                          refine ⟨⟨he0eq ▸ rfl, H0.2.1⟩, ⟨he1eq ▸ rfl, H1.2.1⟩,
                            ⟨H2.1, H2.2.1⟩, ⟨rfl, h3⟩, ?_, ?_⟩
                          · intro _
                            rw [H2.2.2.1 rfl, he0eq, he1eq,
                              Multiset.cons_add, Multiset.add_cons,
                              Multiset.add_cons]
                          · intro hrf; exact absurd hrf (by simp)
                      | false =>
                          obtain ⟨he2eq, hnc2⟩ := H2.2.2.2 rfl
                          cases he3 : ins c3 p with
                          | none => simp [insert4, he0, he1, he2, he3] at h
                          | some e3 =>
                              obtain ⟨e3n, b3⟩ := e3
                              have H3 := H c3 p e3n b3 h3 he3
                              obtain ⟨⟨rfl, rfl, rfl, rfl⟩, rfl⟩ := by
                                simpa [insert4, he0, he1, he2, he3] using h
                              refine ⟨⟨he0eq ▸ rfl, H0.2.1⟩,
                                ⟨he1eq ▸ rfl, H1.2.1⟩, ⟨he2eq ▸ rfl, H2.2.1⟩,
                                ⟨H3.1, H3.2.1⟩, ?_, ?_⟩
                              · intro hb3
                                rw [H3.2.2.1 hb3, he0eq, he1eq, he2eq,
                                  Multiset.add_cons, Multiset.add_cons,
                                  Multiset.add_cons]
                              · intro hb3
                                obtain ⟨he3eq, hnc3⟩ := H3.2.2.2 hb3
                                exact ⟨⟨he0eq, he1eq, he2eq, he3eq⟩,
                                  hnc0, hnc1, hnc2, hnc3⟩

theorem reinsert4_spec {c : ℤ} {ins : Node → Pt → Option (Node × Bool)}
    (H : InsSpec c ins) (pts : List Pt) :
    ∀ (c0 c1 c2 c3 d0 d1 d2 d3 : Node),
      Inv c c0 → Inv c c1 → Inv c c2 → Inv c c3 →
      (∀ q ∈ pts, containsB c0.bnds q = true ∨ containsB c1.bnds q = true ∨
        containsB c2.bnds q = true ∨ containsB c3.bnds q = true) →
      reinsert4 ins (c0, c1, c2, c3) pts = some (d0, d1, d2, d3) →
      (d0.bnds = c0.bnds ∧ Inv c d0) ∧ (d1.bnds = c1.bnds ∧ Inv c d1) ∧
        (d2.bnds = c2.bnds ∧ Inv c d2) ∧ (d3.bnds = c3.bnds ∧ Inv c d3) ∧
        pointsM d0 + (pointsM d1 + (pointsM d2 + pointsM d3)) =
          (pts : Multiset Pt) +
            (pointsM c0 + (pointsM c1 + (pointsM c2 + pointsM c3))) := by
  induction pts with
  | nil =>
      intro c0 c1 c2 c3 d0 d1 d2 d3 h0 h1 h2 h3 _ h
      obtain ⟨rfl, rfl, rfl, rfl⟩ : c0 = d0 ∧ c1 = d1 ∧ c2 = d2 ∧ c3 = d3 := by
        simpa [reinsert4] using h
      exact ⟨⟨rfl, h0⟩, ⟨rfl, h1⟩, ⟨rfl, h2⟩, ⟨rfl, h3⟩, by simp⟩
  | cons p ps ih =>
      intro c0 c1 c2 c3 d0 d1 d2 d3 h0 h1 h2 h3 hpart h
      cases hi4 : insert4 ins c0 c1 c2 c3 p with
      | none => simp [reinsert4, hi4] at h
      | some res =>
          obtain ⟨⟨e0, e1, e2, e3⟩, rb⟩ := res
          have hrest : reinsert4 ins (e0, e1, e2, e3) ps =
              some (d0, d1, d2, d3) := by
            simpa [reinsert4, hi4] using h
          have I4 := insert4_spec H h0 h1 h2 h3 hi4
          cases rb with
          | false =>
              obtain ⟨_, hn0, hn1, hn2, hn3⟩ := I4.2.2.2.2.2 rfl
              rcases hpart p (by simp) with hp | hp | hp | hp
              · rw [hn0] at hp; exact absurd hp (by simp)
              · rw [hn1] at hp; exact absurd hp (by simp)
              · rw [hn2] at hp; exact absurd hp (by simp)
              · rw [hn3] at hp; exact absurd hp (by simp)
          | true =>
              have hm := I4.2.2.2.2.1 rfl
              have hpart' : ∀ q ∈ ps, containsB e0.bnds q = true ∨
                  containsB e1.bnds q = true ∨ containsB e2.bnds q = true ∨
                  containsB e3.bnds q = true := by
                intro q hq
                rw [I4.1.1, I4.2.1.1, I4.2.2.1.1, I4.2.2.2.1.1]
                exact hpart q (by simp [hq])
              have IH := ih e0 e1 e2 e3 d0 d1 d2 d3 I4.1.2 I4.2.1.2
                I4.2.2.1.2 I4.2.2.2.1.2 hpart' hrest
              refine ⟨⟨IH.1.1.trans I4.1.1, IH.1.2⟩,
                ⟨IH.2.1.1.trans I4.2.1.1, IH.2.1.2⟩,
                ⟨IH.2.2.1.1.trans I4.2.2.1.1, IH.2.2.1.2⟩,
                ⟨IH.2.2.2.1.1.trans I4.2.2.2.1.1, IH.2.2.2.1.2⟩, ?_⟩
              rw [IH.2.2.2.2, hm]
              rw [show ((p :: ps : List Pt) : Multiset Pt) =
                p ::ₘ (ps : Multiset Pt) by simp]
              rw [Multiset.add_cons, Multiset.cons_add]

theorem subDivide_spec {c : ℤ} {ins : Node → Pt → Option (Node × Bool)}
    (H : InsSpec c ins) (hc0 : 0 ≤ c) {b : Bnds} {pts : List Pt}
    {d0 d1 d2 d3 : Node}
    (hall : ∀ q ∈ pts, containsB b q = true)
    (h : subDivide ins b c pts = some (d0, d1, d2, d3)) :
    (d0.bnds = nwB b ∧ Inv c d0) ∧ (d1.bnds = neB b ∧ Inv c d1) ∧
      (d2.bnds = swB b ∧ Inv c d2) ∧ (d3.bnds = seB b ∧ Inv c d3) ∧
      pointsM d0 + (pointsM d1 + (pointsM d2 + pointsM d3)) =
        (pts : Multiset Pt) := by
  have hleaf : ∀ bb : Bnds, Inv c (.leaf bb c []) := by
    intro bb
    exact ⟨⟨rfl, by simpa using hc0⟩, by intro q hq; simp at hq, trivial⟩
  have hpart : ∀ q ∈ pts,
      containsB (Node.leaf (nwB b) c [] : Node).bnds q = true ∨
      containsB (Node.leaf (neB b) c [] : Node).bnds q = true ∨
      containsB (Node.leaf (swB b) c [] : Node).bnds q = true ∨
      containsB (Node.leaf (seB b) c [] : Node).bnds q = true := by
    intro q hq
    exact quadrant_cover (hall q hq)
  have := reinsert4_spec H pts _ _ _ _ d0 d1 d2 d3 (hleaf (nwB b))
    (hleaf (neB b)) (hleaf (swB b)) (hleaf (seB b)) hpart h
  refine ⟨⟨this.1.1, this.1.2⟩, ⟨this.2.1.1, this.2.1.2⟩,
    ⟨this.2.2.1.1, this.2.2.1.2⟩, ⟨this.2.2.2.1.1, this.2.2.2.1.2⟩, ?_⟩
  have hm := this.2.2.2.2
  simpa using hm

/-- Master lemma for `InsertNode`: every fuel level satisfies `InsSpec`. -/
theorem insertNode_spec (c : ℤ) (hc0 : 0 ≤ c) :
    ∀ fuel : Nat, InsSpec c (insertNode fuel) := by
  intro fuel
  induction fuel with
  | zero => intro t p t' r _ h; simp [insertNode] at h
  | succ f ih =>
      intro t p t' r hInv h
      obtain ⟨hcap, hib, hqd⟩ := hInv
      cases t with
      | leaf b cap pts =>
          obtain ⟨hcapEq, hlenle⟩ := hcap
          cases hcb : containsB b p
          · obtain ⟨rfl, rfl⟩ : Node.leaf b cap pts = t' ∧ false = r := by
              simpa [insertNode, hcb] using h
            refine ⟨rfl, ⟨⟨hcapEq, hlenle⟩, hib, trivial⟩, ?_, ?_⟩
            · intro hr; exact absurd hr (by simp)
            · intro _; exact ⟨rfl, hcb⟩
          · by_cases hlen : (pts.length : ℤ) < cap
            · obtain ⟨rfl, rfl⟩ :
                  Node.leaf b cap (pts ++ [p]) = t' ∧ true = r := by
                simpa [insertNode, hcb, hlen] using h
              refine ⟨rfl, ⟨⟨hcapEq, ?_⟩, ?_, trivial⟩, ?_, ?_⟩
              · simp only [List.length_append, List.length_singleton]
                push_cast
                omega
              · intro q hq
                rcases List.mem_append.mp hq with hq | hq
                · exact hib q hq
                · rw [List.mem_singleton.mp hq]; exact hcb
              · intro _
                simp only [pointsM_leaf]
                exact Multiset.coe_eq_coe.mpr (List.perm_append_singleton p pts)
              · intro hr; exact absurd hr (by simp)
            · subst hcapEq
              cases hsd : subDivide (insertNode f) b cap pts with
              | none => simp [insertNode, hcb, hlen, hsd] at h
              | some cs =>
                  obtain ⟨e0, e1, e2, e3⟩ := cs
                  cases hi4 : insert4 (insertNode f) e0 e1 e2 e3 p with
                  | none => simp [insertNode, hcb, hlen, hsd, hi4] at h
                  | some res =>
                      obtain ⟨⟨d0, d1, d2, d3⟩, rr⟩ := res
                      obtain ⟨rfl, rfl⟩ :
                          Node.internal b cap d0 d1 d2 d3 = t' ∧ rr = r := by
                        simpa [insertNode, hcb, hlen, hsd, hi4] using h
                      have SD := subDivide_spec ih hc0 hib hsd
                      have I4 := insert4_spec ih SD.1.2 SD.2.1.2 SD.2.2.1.2
                        SD.2.2.2.1.2 hi4
                      have hb0 : d0.bnds = nwB b := I4.1.1.trans SD.1.1
                      have hb1 : d1.bnds = neB b := I4.2.1.1.trans SD.2.1.1
                      have hb2 : d2.bnds = swB b := I4.2.2.1.1.trans
                        SD.2.2.1.1
                      have hb3 : d3.bnds = seB b := I4.2.2.2.1.1.trans
                        SD.2.2.2.1.1
                      have hrr : rr = true := by
                        cases rr with
                        | true => rfl
                        | false =>
                            obtain ⟨_, hn0, hn1, hn2, hn3⟩ :=
                              I4.2.2.2.2.2 rfl
                            rcases quadrant_cover (b := b) hcb with
                              hp | hp | hp | hp
                            · rw [SD.1.1] at hn0; rw [hn0] at hp
                              exact absurd hp (by simp)
                            · rw [SD.2.1.1] at hn1; rw [hn1] at hp
                              exact absurd hp (by simp)
                            · rw [SD.2.2.1.1] at hn2; rw [hn2] at hp
                              exact absurd hp (by simp)
                            · rw [SD.2.2.2.1.1] at hn3; rw [hn3] at hp
                              exact absurd hp (by simp)
                      subst hrr
                      have hsum : pointsM d0 +
                          (pointsM d1 + (pointsM d2 + pointsM d3)) =
                          p ::ₘ (pts : Multiset Pt) := by
                        rw [I4.2.2.2.2.1 rfl, SD.2.2.2.2]
                      have hmemall : ∀ q ∈ allPts d0 ++ allPts d1 ++
                          allPts d2 ++ allPts d3, containsB b q = true := by
                        intro q hq
                        have hqm : q ∈ pointsM d0 +
                            (pointsM d1 + (pointsM d2 + pointsM d3)) := by
                          simp only [List.mem_append] at hq
                          simp only [pointsM, Multiset.mem_add,
                            Multiset.mem_coe]
                          tauto
                        rw [hsum] at hqm
                        rcases Multiset.mem_cons.mp hqm with rfl | hqm
                        · exact hcb
                        · exact hib q (by simpa using hqm)
                      refine ⟨rfl, ⟨⟨rfl, I4.1.2.1, I4.2.1.2.1, I4.2.2.1.2.1,
                        I4.2.2.2.1.2.1⟩,
                        ⟨I4.1.2.2.1, I4.2.1.2.2.1, I4.2.2.1.2.2.1,
                          I4.2.2.2.1.2.2.1, hmemall⟩,
                        ⟨hb0, hb1, hb2, hb3, I4.1.2.2.2, I4.2.1.2.2.2,
                          I4.2.2.1.2.2.2, I4.2.2.2.1.2.2.2⟩⟩, ?_, ?_⟩
                      · intro _
                        rw [pointsM_internal, hsum]
                        rfl
                      · intro hr; exact absurd hr (by simp)
      | internal b cap c0 c1 c2 c3 =>
          obtain ⟨hcapEq, hk0, hk1, hk2, hk3⟩ := hcap
          obtain ⟨hi0, hi1, hi2, hi3, hall⟩ := hib
          obtain ⟨hb0, hb1, hb2, hb3, hq0, hq1, hq2, hq3⟩ := hqd
          subst hcapEq
          cases hcb : containsB b p
          · obtain ⟨rfl, rfl⟩ :
                Node.internal b cap c0 c1 c2 c3 = t' ∧ false = r := by
              simpa [insertNode, hcb] using h
            refine ⟨rfl, ⟨⟨rfl, hk0, hk1, hk2, hk3⟩,
              ⟨hi0, hi1, hi2, hi3, hall⟩,
              ⟨hb0, hb1, hb2, hb3, hq0, hq1, hq2, hq3⟩⟩, ?_, ?_⟩
            · intro hr; exact absurd hr (by simp)
            · intro _; exact ⟨rfl, hcb⟩
          · cases hi4 : insert4 (insertNode f) c0 c1 c2 c3 p with
            | none => simp [insertNode, hcb, hi4] at h
            | some res =>
                obtain ⟨⟨d0, d1, d2, d3⟩, rr⟩ := res
                obtain ⟨rfl, rfl⟩ :
                    Node.internal b cap d0 d1 d2 d3 = t' ∧ rr = r := by
                  simpa [insertNode, hcb, hi4] using h
                have I4 := insert4_spec ih ⟨hk0, hi0, hq0⟩ ⟨hk1, hi1, hq1⟩
                  ⟨hk2, hi2, hq2⟩ ⟨hk3, hi3, hq3⟩ hi4
                have hrr : rr = true := by
                  cases rr with
                  | true => rfl
                  | false =>
                      obtain ⟨_, hn0, hn1, hn2, hn3⟩ := I4.2.2.2.2.2 rfl
                      rcases quadrant_cover (b := b) hcb with hp | hp | hp | hp
                      · rw [← hb0, hn0] at hp; exact absurd hp (by simp)
                      · rw [← hb1, hn1] at hp; exact absurd hp (by simp)
                      · rw [← hb2, hn2] at hp; exact absurd hp (by simp)
                      · rw [← hb3, hn3] at hp; exact absurd hp (by simp)
                subst hrr
                have hsum := I4.2.2.2.2.1 rfl
                have hmemall : ∀ q ∈ allPts d0 ++ allPts d1 ++
                    allPts d2 ++ allPts d3, containsB b q = true := by
                  intro q hq
                  have hqm : q ∈ pointsM d0 +
                      (pointsM d1 + (pointsM d2 + pointsM d3)) := by
                    simp only [List.mem_append] at hq
                    simp only [pointsM, Multiset.mem_add, Multiset.mem_coe]
                    tauto
                  rw [hsum] at hqm
                  rcases Multiset.mem_cons.mp hqm with rfl | hqm
                  · exact hcb
                  · refine hall q ?_
                    simp only [pointsM, Multiset.mem_add,
                      Multiset.mem_coe] at hqm
                    simp only [List.mem_append]
                    tauto
                refine ⟨rfl, ⟨⟨rfl, I4.1.2.1, I4.2.1.2.1, I4.2.2.1.2.1,
                  I4.2.2.2.1.2.1⟩,
                  ⟨I4.1.2.2.1, I4.2.1.2.2.1, I4.2.2.1.2.2.1,
                    I4.2.2.2.1.2.2.1, hmemall⟩,
                  ⟨I4.1.1.trans hb0, I4.2.1.1.trans hb1, I4.2.2.1.1.trans hb2,
                    I4.2.2.2.1.1.trans hb3, I4.1.2.2.2, I4.2.1.2.2.2,
                    I4.2.2.1.2.2.2, I4.2.2.2.1.2.2.2⟩⟩, ?_, ?_⟩
                · intro _
                  rw [pointsM_internal, pointsM_internal, hsum]
                · intro hr; exact absurd hr (by simp)

theorem qtUpdate_inv {c : ℤ} (hc0 : 0 ≤ c) {fuel : Nat} {t : Node}
    {o n : Pt} {t' : Node} {r : Bool} (hinv : Inv c t)
    (h : qtUpdate fuel t o n = some (t', r)) :
    Inv c t' ∧ t'.bnds = t.bnds := by
  unfold qtUpdate at h
  cases hcb : containsB t.bnds n with
  | false =>
      rw [hcb] at h
      obtain ⟨rfl, rfl⟩ : t = t' ∧ false = r := by simpa using h
      exact ⟨hinv, rfl⟩
  | true =>
      rw [hcb] at h
      simp only [if_true] at h
      rcases hrm : removeNode t o with ⟨t1, rm⟩
      rw [hrm] at h
      have hinv1 : Inv c t1 := by
        have := removeNode_inv c t o hinv.1 hinv.2.1 hinv.2.2
        rw [hrm] at this
        exact ⟨this.1, this.2.1, this.2.2⟩
      have hb1 : t1.bnds = t.bnds := by
        have := removeNode_bnds t o
        rw [hrm] at this
        exact this
      cases rm with
      | false =>
          have h' : some (t1, false) = some (t', r) := h
          obtain ⟨rfl, rfl⟩ : t1 = t' ∧ false = r := by simpa using h'
          exact ⟨hinv1, hb1⟩
      | true =>
          have h' : ((insertNode fuel t1 n).bind fun res =>
              if res.2 = true then some (res.1, true)
              else (insertNode fuel res.1 o).bind fun res' =>
                some (res'.1, false)) = some (t', r) := h
          cases hins : insertNode fuel t1 n with
          | none => rw [hins] at h'; simp at h'
          | some res =>
              obtain ⟨t2, ri⟩ := res
              rw [hins] at h'
              have S2 := insertNode_spec c hc0 fuel t1 n t2 ri hinv1 hins
              cases ri with
              | true =>
                  obtain ⟨rfl, rfl⟩ : t2 = t' ∧ true = r := by simpa using h'
                  exact ⟨S2.2.1, S2.1.trans hb1⟩
              | false =>
                  simp only [Option.some_bind, Bool.false_eq_true,
                    if_false] at h'
                  cases hins' : insertNode fuel t2 o with
                  | none => rw [hins'] at h'; simp at h'
                  | some res' =>
                      obtain ⟨t3, ri'⟩ := res'
                      rw [hins'] at h'
                      obtain ⟨rfl, rfl⟩ : t3 = t' ∧ false = r := by
                        simpa using h'
                      have S3 := insertNode_spec c hc0 fuel t2 o t3 ri'
                        S2.2.1 hins'
                      exact ⟨S3.2.1, S3.1.trans (S2.1.trans hb1)⟩

theorem qtUpdate_multiset {c : ℤ} (hc0 : 0 ≤ c) {fuel : Nat} {t : Node}
    {o n : Pt} {t' : Node} {r : Bool} (hinv : Inv c t)
    (h : qtUpdate fuel t o n = some (t', r)) :
    (r = true ∧ ∃ q ∈ pointsM t, q.x = o.x ∧ q.y = o.y ∧
        pointsM t' = n ::ₘ (pointsM t).erase q) ∨
      (r = false ∧ pointsM t' = pointsM t) := by
  unfold qtUpdate at h
  cases hcb : containsB t.bnds n with
  | false =>
      rw [hcb] at h
      obtain ⟨rfl, rfl⟩ : t = t' ∧ false = r := by simpa using h
      exact Or.inr ⟨rfl, rfl⟩
  | true =>
      rw [hcb] at h
      simp only [if_true] at h
      rcases hrm : removeNode t o with ⟨t1, rm⟩
      rw [hrm] at h
      cases rm with
      | false =>
          have h' : some (t1, false) = some (t', r) := h
          obtain ⟨rfl, rfl⟩ : t1 = t' ∧ false = r := by simpa using h'
          have hfe : t1 = t := by
            have := removeNode_false t o
            rw [hrm] at this
            exact this rfl
          exact Or.inr ⟨rfl, by rw [hfe]⟩
      | true =>
          obtain ⟨q, hqmem, hsxy, hm1⟩ := by
            have := removeNode_true t o
            rw [hrm] at this
            exact this rfl
          have hinv1 : Inv c t1 := by
            have := removeNode_inv c t o hinv.1 hinv.2.1 hinv.2.2
            rw [hrm] at this
            exact ⟨this.1, this.2.1, this.2.2⟩
          have hb1 : t1.bnds = t.bnds := by
            have := removeNode_bnds t o
            rw [hrm] at this
            exact this
          have h' : ((insertNode fuel t1 n).bind fun res =>
              if res.2 = true then some (res.1, true)
              else (insertNode fuel res.1 o).bind fun res' =>
                some (res'.1, false)) = some (t', r) := h
          cases hins : insertNode fuel t1 n with
          | none => rw [hins] at h'; simp at h'
          | some res =>
              obtain ⟨t2, ri⟩ := res
              rw [hins] at h'
              have S2 := insertNode_spec c hc0 fuel t1 n t2 ri hinv1 hins
              cases ri with
              | true =>
                  obtain ⟨rfl, rfl⟩ : t2 = t' ∧ true = r := by simpa using h'
                  refine Or.inl ⟨rfl, q, by simpa [pointsM] using hqmem,
                    (sameXY_iff.mp hsxy).1, (sameXY_iff.mp hsxy).2, ?_⟩
                  rw [S2.2.2.1 rfl, hm1]
              | false =>
                  exfalso
                  have := (S2.2.2.2 rfl).2
                  rw [hb1] at this
                  rw [this] at hcb
                  exact absurd hcb (by simp)

/-- Every reachable state has non-negative capacity, satisfies the three
structural invariants, and keeps the creation bounds at the root. -/
theorem reach_inv {b : Bnds} {c : ℤ} {t : Node} (h : Reach b c t) :
    0 ≤ c ∧ Inv c t ∧ t.bnds = b := by
  induction h with
  | init hw hh hc =>
      exact ⟨hc, ⟨⟨rfl, by simpa using hc⟩, by intro q hq; simp at hq,
        trivial⟩, rfl⟩
  | insert hr hins ih =>
      obtain ⟨hc, hinv, hb⟩ := ih
      have := insertNode_spec c hc _ _ _ _ _ hinv hins
      exact ⟨hc, this.2.1, this.1.trans hb⟩
  | remove p hr ih =>
      obtain ⟨hc, hinv, hb⟩ := ih
      have := removeNode_inv c _ p hinv.1 hinv.2.1 hinv.2.2
      exact ⟨hc, ⟨this.1, this.2.1, this.2.2⟩,
        (removeNode_bnds _ p).trans hb⟩
  | update hr hupd ih =>
      obtain ⟨hc, hinv, hb⟩ := ih
      have := qtUpdate_inv hc hinv hupd
      exact ⟨hc, this.1, this.2.trans hb⟩

/-! ## Lemmas about `sortByDistance` -/

/-- The sort key order. -/
def distLE (a e : PD) : Prop := a.dist ≤ e.dist

theorem insertPD_coe (x : PD) (l : List PD) :
    ((insertPD x l : List PD) : Multiset PD) = x ::ₘ (l : Multiset PD) := by
  induction l with
  | nil => rfl
  | cons y ys ih =>
      by_cases hgt : y.dist > x.dist
      · simp [insertPD, hgt]
      · simp only [insertPD, if_neg hgt]
        rw [show ((y :: insertPD x ys : List PD) : Multiset PD) =
          y ::ₘ ((insertPD x ys : List PD) : Multiset PD) by simp]
        rw [ih, Multiset.cons_swap]
        simp

theorem insertPD_mem {x z : PD} {l : List PD} (h : z ∈ insertPD x l) :
    z = x ∨ z ∈ l := by
  have : z ∈ ((insertPD x l : List PD) : Multiset PD) := by simpa using h
  rw [insertPD_coe] at this
  rcases Multiset.mem_cons.mp this with h | h
  · exact Or.inl h
  · exact Or.inr (by simpa using h)

theorem insertPD_pairwise {x : PD} {l : List PD}
    (hp : l.Pairwise distLE) : (insertPD x l).Pairwise distLE := by
  induction l with
  | nil => simp [insertPD, distLE]
  | cons y ys ih =>
      obtain ⟨hy, hys⟩ := List.pairwise_cons.mp hp
      by_cases hgt : y.dist > x.dist
      · rw [insertPD, if_pos hgt]
        refine List.pairwise_cons.mpr ⟨?_, hp⟩
        intro z hz
        rcases List.mem_cons.mp hz with rfl | hz
        · exact le_of_lt hgt
        · exact le_trans (le_of_lt hgt) (hy z hz)
      · rw [insertPD, if_neg hgt]
        refine List.pairwise_cons.mpr ⟨?_, ih hys⟩
        intro z hz
        rcases insertPD_mem hz with rfl | hz
        · exact le_of_not_lt hgt
        · exact hy z hz

theorem insertPD_filter_key {x : PD} {l : List PD} (d : ℚ)
    (hp : l.Pairwise distLE) :
    (insertPD x l).filter (fun e => decide (e.dist = d)) =
      l.filter (fun e => decide (e.dist = d)) ++
        (if x.dist = d then [x] else []) := by
  induction l with
  | nil => by_cases hd : x.dist = d <;> simp [insertPD, hd]
  | cons y ys ih =>
      obtain ⟨hy, hys⟩ := List.pairwise_cons.mp hp
      by_cases hgt : y.dist > x.dist
      · rw [insertPD, if_pos hgt]
        by_cases hd : x.dist = d
        · have hnone : (y :: ys).filter
              (fun e => decide (e.dist = d)) = [] := by
            rw [List.filter_eq_nil_iff]
            intro z hz
            have : x.dist < z.dist := by
              rcases List.mem_cons.mp hz with rfl | hz
              · exact hgt
              · exact lt_of_lt_of_le hgt (hy z hz)
            simp only [decide_eq_true_eq]
            intro hzd
            rw [hd] at this
            rw [hzd] at this
            exact lt_irrefl d this
          rw [List.filter_cons_of_pos (by simpa using hd), hnone]
          simp [hd]
        · rw [List.filter_cons_of_neg (by simpa using hd)]
          simp [hd]
      · rw [insertPD, if_neg hgt]
        by_cases hyd : y.dist = d
        · rw [List.filter_cons_of_pos (by simpa using hyd),
            List.filter_cons_of_pos (by simpa using hyd), ih hys,
            List.cons_append]
        · rw [List.filter_cons_of_neg (by simpa using hyd),
            List.filter_cons_of_neg (by simpa using hyd), ih hys]

theorem sortByDistance_aux_coe (l : List PD) :
    ∀ acc : List PD,
      ((l.foldl (fun a key => insertPD key a) acc : List PD) : Multiset PD) =
        (acc : Multiset PD) + (l : Multiset PD) := by
  induction l with
  | nil => intro acc; simp
  | cons x xs ih =>
      intro acc
      rw [List.foldl_cons, ih (insertPD x acc), insertPD_coe]
      rw [show ((x :: xs : List PD) : Multiset PD) =
        x ::ₘ (xs : Multiset PD) by simp]
      rw [Multiset.cons_add, Multiset.add_cons]

theorem sortByDistance_aux_pairwise (l : List PD) :
    ∀ acc : List PD, acc.Pairwise distLE →
      (l.foldl (fun a key => insertPD key a) acc).Pairwise distLE := by
  induction l with
  | nil => intro acc h; exact h
  | cons x xs ih =>
      intro acc h
      rw [List.foldl_cons]
      exact ih (insertPD x acc) (insertPD_pairwise h)

theorem sortByDistance_aux_filter (l : List PD) (d : ℚ) :
    ∀ acc : List PD, acc.Pairwise distLE →
      (l.foldl (fun a key => insertPD key a) acc).filter
          (fun e => decide (e.dist = d)) =
        acc.filter (fun e => decide (e.dist = d)) ++
          l.filter (fun e => decide (e.dist = d)) := by
  induction l with
  | nil => intro acc _; simp
  | cons x xs ih =>
      intro acc h
      rw [List.foldl_cons, ih (insertPD x acc) (insertPD_pairwise h),
        insertPD_filter_key d h]
      by_cases hd : x.dist = d
      · rw [List.filter_cons_of_pos (by simpa using hd)]
        simp [hd]
      · rw [List.filter_cons_of_neg (by simpa using hd)]
        simp [hd]

theorem sortByDistance_coe (l : List PD) :
    ((sortByDistance l : List PD) : Multiset PD) = (l : Multiset PD) := by
  unfold sortByDistance
  rw [sortByDistance_aux_coe l []]
  simp

theorem sortByDistance_pairwise (l : List PD) :
    (sortByDistance l).Pairwise distLE :=
  sortByDistance_aux_pairwise l [] (by simp)

theorem sortByDistance_filter_key (l : List PD) (d : ℚ) :
    (sortByDistance l).filter (fun e => decide (e.dist = d)) =
      l.filter (fun e => decide (e.dist = d)) := by
  unfold sortByDistance
  rw [sortByDistance_aux_filter l d [] (by simp)]
  simp

theorem sortByDistance_length (l : List PD) :
    (sortByDistance l).length = l.length := by
  have := congrArg Multiset.card (sortByDistance_coe l)
  simpa using this

/-! ## Lemmas about `KNearest` -/

theorem radiiList_ne_nil {maxR : ℚ} (h : 10 ≤ maxR) :
    radiiList maxR ≠ [] := by
  have : numRadii maxR = Nat.log 2 ⌊maxR / 10⌋.toNat + 1 := by
    unfold numRadii
    rw [if_neg (by linarith)]
  simp [radiiList, this]

theorem radiiList_getLast {maxR : ℚ} (h : 10 ≤ maxR) (hne : radiiList maxR ≠ []) :
    maxR < 2 * (radiiList maxR).getLast hne := by
  set L : Nat := Nat.log 2 ⌊maxR / 10⌋.toNat with hL
  have hnum : numRadii maxR = L + 1 := by
    unfold numRadii
    rw [if_neg (by linarith)]
  have hq1 : (1 : ℚ) ≤ maxR / 10 := by linarith
  have hfl0 : (0 : ℤ) ≤ ⌊maxR / 10⌋ :=
    Int.le_floor.mpr (by push_cast; linarith)
  have hlast : (radiiList maxR).getLast hne = 10 * 2 ^ L := by
    unfold radiiList at hne ⊢
    rw [List.getLast_eq_getElem]
    simp only [List.getElem_map, List.getElem_range, List.length_map,
      List.length_range]
    rw [hnum]
    simp
  rw [hlast]
  have hpow : (⌊maxR / 10⌋.toNat : ℤ) < 2 ^ (L + 1) := by
    exact_mod_cast Nat.lt_pow_succ_log_self (by norm_num) ⌊maxR / 10⌋.toNat
  have hfl : (⌊maxR / 10⌋.toNat : ℤ) = ⌊maxR / 10⌋ :=
    Int.toNat_of_nonneg hfl0
  have hql : maxR / 10 < (⌊maxR / 10⌋ : ℚ) + 1 := Int.lt_floor_add_one _
  have hq2 : maxR / 10 < (2 : ℚ) ^ (L + 1) := by
    have h1 : (⌊maxR / 10⌋ : ℚ) + 1 ≤ ((2 : ℚ) ^ (L + 1)) := by
      have : ⌊maxR / 10⌋ < (2 : ℤ) ^ (L + 1) := by
        rw [← hfl]; exact_mod_cast hpow
      have h2 : ⌊maxR / 10⌋ + 1 ≤ (2 : ℤ) ^ (L + 1) := this
      calc (⌊maxR / 10⌋ : ℚ) + 1 = ((⌊maxR / 10⌋ + 1 : ℤ) : ℚ) := by
            push_cast; ring
        _ ≤ (((2 : ℤ) ^ (L + 1) : ℤ) : ℚ) := by exact_mod_cast h2
        _ = (2 : ℚ) ^ (L + 1) := by push_cast; ring
    linarith
  have : maxR < 10 * (2 : ℚ) ^ (L + 1) := by linarith
  calc maxR < 10 * (2 : ℚ) ^ (L + 1) := this
    _ = 2 * (10 * 2 ^ L) := by ring

theorem knnProbe_spec (root : Node) (target : Pt) (k maxPts : ℤ) :
    ∀ (L : List ℚ) (res0 : List Pt),
      (L = [] ∧ knnProbe root target k maxPts L res0 = res0) ∨
      (∃ r ∈ L, knnProbe root target k maxPts L res0 =
          knnSearchAt root target r ∧
        (k ≤ ((knnSearchAt root target r).length : ℤ) ∨
          L.getLast? = some r ∨
          maxPts < ((knnSearchAt root target r).length : ℤ))) := by
  intro L
  induction L with
  | nil => intro res0; exact Or.inl ⟨rfl, rfl⟩
  | cons r rs ih =>
      intro res0
      by_cases hk : ((knnSearchAt root target r).length : ℤ) ≥ k
      · refine Or.inr ⟨r, by simp, ?_, Or.inl hk⟩
        simp [knnProbe, hk]
      · by_cases hmp : ((knnSearchAt root target r).length : ℤ) > maxPts
        · refine Or.inr ⟨r, by simp, ?_, Or.inr (Or.inr hmp)⟩
          simp [knnProbe, hk, hmp]
        · have hred : knnProbe root target k maxPts (r :: rs) res0 =
              knnProbe root target k maxPts rs
                (knnSearchAt root target r) := by
            simp [knnProbe, hk, hmp]
          rcases ih (knnSearchAt root target r) with ⟨hnil, hres⟩ | hfound
          · subst hnil
            refine Or.inr ⟨r, by simp, ?_, Or.inr (Or.inl (by simp))⟩
            rw [hred, hres]
          · obtain ⟨r', hr'mem, hres, hcond⟩ := hfound
            refine Or.inr ⟨r', by simp [hr'mem], by rw [hred, hres], ?_⟩
            rcases hcond with hc | hc | hc
            · exact Or.inl hc
            · refine Or.inr (Or.inl ?_)
              obtain ⟨b, l', rfl⟩ := List.exists_cons_of_ne_nil
                (List.ne_nil_of_mem hr'mem)
              rw [List.getLast?_cons_cons]
              exact hc
            · exact Or.inr (Or.inr hc)

theorem knnMaxPoints_ge {k : ℤ} (hk : 0 < k) (hk2 : k ≤ 100000) :
    k ≤ knnMaxPoints k := by
  unfold knnMaxPoints
  by_cases h : k * 10 > 100000
  · rw [if_pos h]; exact hk2
  · rw [if_neg h]; linarith

/-- A probe whose half-width exceeds `max(width, height)` of the root
covers every stored point. -/
theorem knnSearchAt_all {t : Node} (hib : InB t) {target : Pt} {R : ℚ}
    (htin : containsB t.bnds target = true)
    (hR : knnMaxRadius t < 2 * R) :
    ((knnSearchAt t target R : List Pt) : Multiset Pt) = pointsM t := by
  apply searchTree_all _ _ hib
  intro q hq
  have hqb := hib.mem_bnds hq
  rw [containsB_iff] at hqb htin ⊢
  obtain ⟨hq1, hq2, hq3, hq4⟩ := hqb
  obtain ⟨ht1, ht2, ht3, ht4⟩ := htin
  have hw : t.bnds.width < R := by
    have h1 : t.bnds.width ≤ max t.bnds.width t.bnds.height := le_max_left _ _
    unfold knnMaxRadius at hR
    linarith
  have hh : t.bnds.height < R := by
    have h1 : t.bnds.height ≤ max t.bnds.width t.bnds.height :=
      le_max_right _ _
    unfold knnMaxRadius at hR
    linarith
  refine ⟨by simp only; linarith, by simp only; linarith,
    by simp only; linarith, by simp only; linarith⟩

/-- Search results form a sub-multiset of the stored points. -/
theorem searchTree_sub (area : Bnds) (t : Node) (hib : InB t) :
    ((searchTree t area : List Pt) : Multiset Pt) ≤ pointsM t := by
  rw [Multiset.le_iff_count]
  intro a
  rw [Multiset.coe_count,
    show (pointsM t).count a = (allPts t).count a from Multiset.coe_count a _,
    searchTree_count area a t hib]
  by_cases hca : containsB area a = true
  · rw [if_pos hca]
  · rw [if_neg hca]
    exact Nat.zero_le _

theorem knnCandidates_sub (root : Node) (target : Pt) (k : ℤ)
    (hib : InB root) :
    ((knnCandidates root target k : List Pt) : Multiset Pt) ≤
      pointsM root := by
  unfold knnCandidates
  rcases knnProbe_spec root target k (knnMaxPoints k)
      (radiiList (knnMaxRadius root)) [] with
    ⟨_, hres⟩ | ⟨r, _, hres, _⟩
  · rw [hres]
    exact Multiset.zero_le _
  · rw [hres]
    exact searchTree_sub _ root hib

theorem knnCandidates_length_le (root : Node) (target : Pt) (k : ℤ) :
    (knnCandidates root target k).length ≤ (allPts root).length := by
  unfold knnCandidates
  rcases knnProbe_spec root target k (knnMaxPoints k)
      (radiiList (knnMaxRadius root)) [] with
    ⟨_, hres⟩ | ⟨r, _, hres, _⟩
  · rw [hres]; simp
  · rw [hres]
    exact searchTree_length_le _ root

/-- For positive `k` the result of `KNearest` is the distance sort of the
candidate set, truncated to `k` entries, with the distances stripped. -/
theorem kNearest_repr (root : Node) (target : Pt) {k : ℤ} (hk : 0 < k) :
    kNearest root target k =
      ((sortByDistance (withDist target (knnCandidates root target k))).take
        k.toNat).map PD.point := by
  unfold kNearest
  rw [if_neg (not_le.mpr hk)]
  by_cases hemp : (knnCandidates root target k).isEmpty
  · have : knnCandidates root target k = [] := by simpa using hemp
    simp [hemp, this, withDist, sortByDistance]
  · simp only [hemp, Bool.false_eq_true, if_false]

theorem kNearest_length_eq (root : Node) (target : Pt) {k : ℤ} (hk : 0 < k) :
    (kNearest root target k).length =
      min k.toNat (knnCandidates root target k).length := by
  rw [kNearest_repr root target hk]
  rw [List.length_map, List.length_take, sortByDistance_length]
  unfold withDist
  rw [List.length_map]

theorem kNearest_multiset_all (root : Node) (target : Pt) {k : ℤ}
    (hk : 0 < k)
    (hlen : (knnCandidates root target k).length ≤ k.toNat) :
    ((kNearest root target k : List Pt) : Multiset Pt) =
      ((knnCandidates root target k : List Pt) : Multiset Pt) := by
  rw [kNearest_repr root target hk]
  have hlen2 : (sortByDistance
      (withDist target (knnCandidates root target k))).length ≤ k.toNat := by
    rw [sortByDistance_length]
    unfold withDist
    rw [List.length_map]
    exact hlen
  rw [List.take_of_length_le hlen2]
  calc (((sortByDistance (withDist target (knnCandidates root target k))).map
        PD.point : List Pt) : Multiset Pt)
      = Multiset.map PD.point ((sortByDistance
          (withDist target (knnCandidates root target k)) : List PD) :
            Multiset PD) := by
        rw [Multiset.map_coe]
    _ = Multiset.map PD.point ((withDist target
          (knnCandidates root target k) : List PD) : Multiset PD) := by
        rw [sortByDistance_coe]
    _ = ((knnCandidates root target k : List Pt) : Multiset Pt) := by
        rw [Multiset.map_coe]
        unfold withDist
        rw [List.map_map]
        rw [show (PD.point ∘ fun p => PD.mk p (dist2 target p)) = id by
          funext p; rfl]
        simp

theorem kNearest_sorted (root : Node) (target : Pt) (k : ℤ) :
    (kNearest root target k).Pairwise
      (fun a e => dist2 target a ≤ dist2 target e) := by
  by_cases hk : k ≤ 0
  · unfold kNearest
    simp [hk]
  · rw [kNearest_repr root target (by omega)]
    rw [List.pairwise_map]
    have hp := sortByDistance_pairwise
      (withDist target (knnCandidates root target k))
    have hp2 := List.Pairwise.sublist (List.take_sublist k.toNat _) hp
    have hmem : ∀ e ∈ (sortByDistance (withDist target
        (knnCandidates root target k))).take k.toNat,
        e.dist = dist2 target e.point := by
      intro e he
      have h1 : e ∈ sortByDistance (withDist target
          (knnCandidates root target k)) := List.take_subset _ _ he
      have h2 : e ∈ withDist target (knnCandidates root target k) := by
        have := sortByDistance_coe (withDist target
          (knnCandidates root target k))
        have h3 : e ∈ ((sortByDistance (withDist target
            (knnCandidates root target k)) : List PD) : Multiset PD) := by
          simpa using h1
        rw [this] at h3
        simpa using h3
      unfold withDist at h2
      obtain ⟨p, _, rfl⟩ := List.mem_map.mp h2
      rfl
    exact hp2.imp_of_mem fun {a e} ha he hr => by
      have h1 := hmem a ha
      have h2 := hmem e he
      unfold distLE at hr
      rw [h1, h2] at hr
      exact hr

/-! ## Divergence of `InsertNode` on coordinate duplicates

Inserting a point into a capacity-1 leaf that already holds a point with
the same coordinates subdivides forever: the subdivision moves the stored
point into the NW child, whose bounds still contain both points, and the
recursive insertion meets the same full capacity-1 leaf again (with halved
extent).  The fuel-indexed computation therefore returns `none` at every
fuel. -/

theorem insert_dup_diverges :
    ∀ (fuel : Nat) (w h : ℚ), 0 ≤ w → 0 ≤ h → ∀ d e : ℤ,
      insertNode fuel (.leaf ⟨0, 0, w, h⟩ 1 [⟨0, 0, d⟩]) ⟨0, 0, e⟩ =
        none := by
  intro fuel
  induction fuel with
  | zero => intros; rfl
  | succ f ih =>
      intro w h hw hh d e
      have hcb : containsB ⟨0, 0, w, h⟩ (⟨0, 0, e⟩ : Pt) = true := by
        rw [containsB_iff]
        exact ⟨le_refl _, by simpa using hw, by simpa using hh, le_refl _⟩
      simp only [insertNode, hcb, if_true]
      rw [if_neg (by norm_num)]
      cases f with
      | zero => rfl
      | succ g =>
          have hcb2 : containsB ⟨0, 0, w / 2, h / 2⟩ (⟨0, 0, d⟩ : Pt) =
              true := by
            rw [containsB_iff]
            refine ⟨le_refl _, by simp only [zero_add]; linarith,
              by simp only [zero_add]; linarith, le_refl _⟩
          have hc0ins : insertNode (g + 1)
              (Node.leaf ⟨0, 0, w / 2, h / 2⟩ 1 []) ⟨0, 0, d⟩ =
              some (Node.leaf ⟨0, 0, w / 2, h / 2⟩ 1 [⟨0, 0, d⟩], true) := by
            simp only [insertNode, hcb2, if_true]
            rw [if_pos (by norm_num)]
            rfl
          have hsd : subDivide (insertNode (g + 1)) ⟨0, 0, w, h⟩ 1
              [⟨0, 0, d⟩] =
              some (Node.leaf ⟨0, 0, w / 2, h / 2⟩ 1 [⟨0, 0, d⟩],
                .leaf (neB ⟨0, 0, w, h⟩) 1 [],
                .leaf (swB ⟨0, 0, w, h⟩) 1 [],
                .leaf (seB ⟨0, 0, w, h⟩) 1 []) := by
            show reinsert4 _ _ _ = _
            simp only [reinsert4, insert4]
            rw [show nwB ⟨0, 0, w, h⟩ = ⟨0, 0, w / 2, h / 2⟩ from rfl]
            rw [hc0ins]
            rfl
          have hnone : insertNode (g + 1)
              (Node.leaf ⟨0, 0, w / 2, h / 2⟩ 1 [⟨0, 0, d⟩]) ⟨0, 0, e⟩ =
              none := ih (w / 2) (h / 2) (by linarith) (by linarith) d e
          rw [hsd]
          simp only [Option.some_bind, insert4]
          rw [hnone]
          rfl

/-- One-step evaluation of `InsertNode` on a leaf with room, used to build
concrete reachable states. -/
theorem insert_leaf_room (fuel : Nat) {b : Bnds} {c : ℤ} {pts : List Pt}
    (p : Pt) (hcb : containsB b p = true) (hlen : (pts.length : ℤ) < c) :
    insertNode (fuel + 1) (.leaf b c pts) p =
      some (.leaf b c (pts ++ [p]), true) := by
  simp only [insertNode, hcb, if_true]
  rw [if_pos hlen]

/-! ## Claim theorems -/

/-- C1: in every reachable tree state, a point stored exactly once (it was
successfully inserted and not removed or updated away, and no duplicate of
it was inserted) is returned exactly once by `Search` over any query
rectangle whose closed bounds contain it, regardless of the operations
(and subdivisions) that produced the state. -/
theorem C1_search_exactly_once {b : Bnds} {c : ℤ} {t : Node} {p : Pt}
    {area : Bnds} (hr : Reach b c t)
    (hcount : (pointsM t).count p = 1)
    (harea : containsB area p = true) :
    ((searchTree t area : List Pt) : Multiset Pt).count p = 1 := by
  obtain ⟨_, hinv, _⟩ := reach_inv hr
  rw [Multiset.coe_count, searchTree_count area p t hinv.2.1, if_pos harea]
  rw [show (pointsM t).count p = (allPts t).count p from
    Multiset.coe_count p _] at hcount
  exact hcount

/-- Witness for C1 at a concrete reachable state. -/
theorem C1_witness :
    ((searchTree (Node.leaf ⟨0, 0, 100, 100⟩ 4 [⟨50, 50, 1⟩])
        ⟨0, 0, 100, 100⟩ : List Pt) : Multiset Pt).count ⟨50, 50, 1⟩ = 1 :=
  C1_search_exactly_once
    (Reach.insert (Reach.init (by norm_num) (by norm_num) (by norm_num))
      (insert_leaf_room 0 ⟨50, 50, 1⟩
        (by rw [containsB_iff]; norm_num) (by norm_num)))
    (by decide) (by rw [containsB_iff]; norm_num)

/-- C2 counterexample: in the reachable state with root bounds
`(0,0,1,1)`, capacity 4 and a single stored point `(1/2,1/2)`,
`KNearest((1/2,1/2), 1)` returns the empty sequence although
`min(k, population) = 1`: the expanding-radius loop starts at radius 10,
which already exceeds `maxRadius = 2*max(width,height) = 2`, so the loop
never runs a single search. -/
theorem C2_counterexample :
    Reach ⟨0, 0, 1, 1⟩ 4 (Node.leaf ⟨0, 0, 1, 1⟩ 4 [⟨1/2, 1/2, 0⟩]) ∧
      (0 : ℤ) < 1 ∧
      min (1 : ℤ).toNat
        (allPts (Node.leaf ⟨0, 0, 1, 1⟩ 4 [⟨1/2, 1/2, 0⟩])).length = 1 ∧
      kNearest (Node.leaf ⟨0, 0, 1, 1⟩ 4 [⟨1/2, 1/2, 0⟩]) ⟨1/2, 1/2, 0⟩ 1 =
        [] := by
  have hmr : knnMaxRadius (Node.leaf ⟨0, 0, 1, 1⟩ 4 [⟨1/2, 1/2, 0⟩]) = 2 := by
    unfold knnMaxRadius
    simp only [Node.bnds]
    norm_num
  have hrl : radiiList
      (knnMaxRadius (Node.leaf ⟨0, 0, 1, 1⟩ 4 [⟨1/2, 1/2, 0⟩])) = [] := by
    rw [hmr]
    unfold radiiList numRadii
    rw [if_pos (by norm_num)]
    rfl
  have hcand : knnCandidates (Node.leaf ⟨0, 0, 1, 1⟩ 4 [⟨1/2, 1/2, 0⟩])
      ⟨1/2, 1/2, 0⟩ 1 = [] := by
    unfold knnCandidates
    rw [hrl]
    rfl
  refine ⟨Reach.insert
    (Reach.init (by norm_num) (by norm_num) (by norm_num))
    (insert_leaf_room 0 ⟨1/2, 1/2, 0⟩
      (by rw [containsB_iff]; norm_num) (by norm_num)),
    by norm_num, by decide, ?_⟩
  unfold kNearest
  rw [if_neg (by norm_num), hcand]
  rfl

/-- C2 (amended): for every reachable tree state, target and `k > 0`,
provided the target lies within the root's bounds, the radius ceiling
`2*max(width,height)` is at least the initial search radius 10, and
`k ≤ 100000` (so that the candidate cap `maxPoints = min(10k, 100000)` is
at least `k`), `KNearest(target, k)` returns a sequence of length
`min(k, population)`; in particular when `k` is at least the number of
stored points it returns every stored point (sorted by distance). -/
theorem C2_knearest_length {b : Bnds} {c : ℤ} {t : Node} {target : Pt}
    {k : ℤ} (hr : Reach b c t)
    (htin : containsB t.bnds target = true)
    (hmaxR : 10 ≤ knnMaxRadius t)
    (hk : 0 < k) (hk2 : k ≤ 100000) :
    (kNearest t target k).length = min k.toNat (allPts t).length ∧
      ((allPts t).length ≤ k.toNat →
        ((kNearest t target k : List Pt) : Multiset Pt) = pointsM t) := by
  obtain ⟨hc0, hinv, hb⟩ := reach_inv hr
  have hib := hinv.2.1
  have hpople := knnCandidates_length_le t target k
  have hmain : k ≤ ((knnCandidates t target k).length : ℤ) ∨
      ((knnCandidates t target k : List Pt) : Multiset Pt) = pointsM t := by
    rcases knnProbe_spec t target k (knnMaxPoints k)
        (radiiList (knnMaxRadius t)) [] with
      ⟨hnil, _⟩ | ⟨r, hrmem, hres, hcond⟩
    · exact absurd hnil (radiiList_ne_nil hmaxR)
    · have hcandseq : knnCandidates t target k = knnSearchAt t target r := by
        unfold knnCandidates
        exact hres
      rcases hcond with hlen | hlast | hmp
      · left
        rw [hcandseq]
        exact hlen
      · right
        have hne := radiiList_ne_nil hmaxR
        rw [List.getLast?_eq_getLast _ hne] at hlast
        have hrlast : r = (radiiList (knnMaxRadius t)).getLast hne :=
          (Option.some.inj hlast).symm
        rw [hcandseq, hrlast]
        exact knnSearchAt_all hib htin
          (by simpa [← hrlast] using radiiList_getLast hmaxR hne)
      · left
        rw [hcandseq]
        have := knnMaxPoints_ge hk hk2
        linarith
  rcases hmain with hk_le | hall
  · have hlt : k.toNat ≤ (knnCandidates t target k).length := by omega
    constructor
    · rw [kNearest_length_eq t target hk, min_eq_left hlt,
        min_eq_left (le_trans hlt hpople)]
    · intro hpop
      have hlenk : (knnCandidates t target k).length ≤ k.toNat :=
        le_trans hpople hpop
      rw [kNearest_multiset_all t target hk hlenk]
      refine Multiset.eq_of_le_of_card_le (knnCandidates_sub t target k hib)
        ?_
      simp only [Multiset.coe_card, pointsM]
      omega
  · have hlenpop : (knnCandidates t target k).length =
        (allPts t).length := by
      have := congrArg Multiset.card hall
      simpa [pointsM] using this
    constructor
    · rw [kNearest_length_eq t target hk, hlenpop]
    · intro hpop
      rw [kNearest_multiset_all t target hk (by omega)]
      exact hall

/-- Witness for the amended C2 at a concrete reachable state. -/
theorem C2_witness :
    (kNearest (Node.leaf ⟨0, 0, 100, 100⟩ 4 [⟨50, 50, 2⟩]) ⟨60, 60, 0⟩
        1).length =
      min (1 : ℤ).toNat
        (allPts (Node.leaf ⟨0, 0, 100, 100⟩ 4 [⟨50, 50, 2⟩])).length :=
  (C2_knearest_length
    (Reach.insert (Reach.init (by norm_num) (by norm_num) (by norm_num))
      (insert_leaf_room 0 ⟨50, 50, 2⟩
        (by rw [containsB_iff]; norm_num) (by norm_num)))
    (by rw [containsB_iff]; norm_num [Node.bnds])
    (by unfold knnMaxRadius; simp only [Node.bnds]; norm_num)
    (by norm_num) (by norm_num)).1

/-- C3: the in-bounds insertion `Insert((0,0))` into the reachable state
with bounds `(0,0,100,100)`, capacity 1 and one stored point at the same
coordinates `(0,0)` does not terminate: the fuel-indexed `InsertNode`
returns `none` at every fuel, because each subdivision moves the stored
duplicate into the NW child and recurses into the same situation with
halved extent.  This contradicts the claim that every in-bounds insertion
terminates. -/
theorem C3_insert_divergence :
    Reach ⟨0, 0, 100, 100⟩ 1 (Node.leaf ⟨0, 0, 100, 100⟩ 1 [⟨0, 0, 5⟩]) ∧
      containsB (Node.leaf ⟨0, 0, 100, 100⟩ 1
        [⟨0, 0, 5⟩] : Node).bnds ⟨0, 0, 7⟩ = true ∧
      ∀ fuel : Nat,
        insertNode fuel (Node.leaf ⟨0, 0, 100, 100⟩ 1 [⟨0, 0, 5⟩])
          ⟨0, 0, 7⟩ = none :=
  ⟨Reach.insert (Reach.init (by norm_num) (by norm_num) (by norm_num))
    (insert_leaf_room 0 ⟨0, 0, 5⟩
      (by rw [containsB_iff]; norm_num) (by norm_num)),
    by rw [containsB_iff]; norm_num [Node.bnds],
    fun fuel =>
      insert_dup_diverges fuel 100 100 (by norm_num) (by norm_num) 5 7⟩

/-- C4: the claim that every point within the root's bounds is accepted
(`Insert` returns `true`) fails on the code: with root bounds
`(0,0,50,50)`, capacity 1 and a stored point at `(0,0)`, inserting
another in-bounds point at the same coordinates never returns at all (the
fuel-indexed `InsertNode` yields `none` at every fuel), so the call is
neither `true` nor `false`. -/
theorem C4_insert_inbounds_diverges :
    Reach ⟨0, 0, 50, 50⟩ 1 (Node.leaf ⟨0, 0, 50, 50⟩ 1 [⟨0, 0, 3⟩]) ∧
      containsB (Node.leaf ⟨0, 0, 50, 50⟩ 1
        [⟨0, 0, 3⟩] : Node).bnds ⟨0, 0, 4⟩ = true ∧
      ∀ fuel : Nat,
        insertNode fuel (Node.leaf ⟨0, 0, 50, 50⟩ 1 [⟨0, 0, 3⟩])
          ⟨0, 0, 4⟩ = none :=
  ⟨Reach.insert (Reach.init (by norm_num) (by norm_num) (by norm_num))
    (insert_leaf_room 0 ⟨0, 0, 3⟩
      (by rw [containsB_iff]; norm_num) (by norm_num)),
    by rw [containsB_iff]; norm_num [Node.bnds],
    fun fuel =>
      insert_dup_diverges fuel 50 50 (by norm_num) (by norm_num) 3 4⟩

/-- C5: on every reachable tree state, a terminating `Update(old, new)`
call is all-or-nothing on the multiset of stored points: it either
returns `true` and the new state equals the prior one with one occurrence
of `old`'s coordinates removed and `new` added, or it returns `false` and
the multiset of stored points is exactly what it was before the call. -/
theorem C5_update_atomic {b : Bnds} {c : ℤ} {t : Node} {o n : Pt}
    {t' : Node} {r : Bool} {fuel : Nat} (hr : Reach b c t)
    (h : qtUpdate fuel t o n = some (t', r)) :
    (r = true ∧ ∃ q ∈ pointsM t, q.x = o.x ∧ q.y = o.y ∧
        pointsM t' = n ::ₘ (pointsM t).erase q) ∨
      (r = false ∧ pointsM t' = pointsM t) := by
  obtain ⟨hc0, hinv, _⟩ := reach_inv hr
  exact qtUpdate_multiset hc0 hinv h

/-- Witness for C5 at a concrete reachable state. -/
theorem C5_witness :
    (true = true ∧ ∃ q ∈ pointsM (Node.leaf ⟨0, 0, 100, 100⟩ 4
        [⟨10, 10, 3⟩]), q.x = (⟨10, 10, 3⟩ : Pt).x ∧
        q.y = (⟨10, 10, 3⟩ : Pt).y ∧
        pointsM (Node.leaf ⟨0, 0, 100, 100⟩ 4 [⟨20, 20, 3⟩]) =
          (⟨20, 20, 3⟩ : Pt) ::ₘ
            (pointsM (Node.leaf ⟨0, 0, 100, 100⟩ 4
              [⟨10, 10, 3⟩])).erase q) ∨
      (true = false ∧
        pointsM (Node.leaf ⟨0, 0, 100, 100⟩ 4 [⟨20, 20, 3⟩]) =
          pointsM (Node.leaf ⟨0, 0, 100, 100⟩ 4 [⟨10, 10, 3⟩])) :=
  C5_update_atomic
    (Reach.insert (Reach.init (by norm_num) (by norm_num) (by norm_num))
      (insert_leaf_room 0 ⟨10, 10, 3⟩
        (by rw [containsB_iff]; norm_num) (by norm_num)))
    (show qtUpdate 2 (Node.leaf ⟨0, 0, 100, 100⟩ 4 [⟨10, 10, 3⟩])
        ⟨10, 10, 3⟩ ⟨20, 20, 3⟩ =
      some (Node.leaf ⟨0, 0, 100, 100⟩ 4 [⟨20, 20, 3⟩], true) by
        have hrm : removeNode (Node.leaf ⟨0, 0, 100, 100⟩ 4 [⟨10, 10, 3⟩])
            ⟨10, 10, 3⟩ = (Node.leaf ⟨0, 0, 100, 100⟩ 4 [], true) := by
          simp only [removeNode]
          rw [if_pos (by rw [containsB_iff]; norm_num)]
          rfl
        unfold qtUpdate
        rw [if_pos (by rw [containsB_iff]; norm_num [Node.bnds]), hrm]
        show ((insertNode 2 (Node.leaf ⟨0, 0, 100, 100⟩ 4 [])
            ⟨20, 20, 3⟩).bind fun res =>
          if res.2 = true then some (res.1, true)
          else (insertNode 2 res.1 ⟨10, 10, 3⟩).bind fun res' =>
            some (res'.1, false)) = _
        rw [insert_leaf_room 1 ⟨20, 20, 3⟩
          (by rw [containsB_iff]; norm_num) (by norm_num)]
        rfl)

/-- C6: for every tree state, target and `k > 0`, the sequence returned by
`KNearest(target, k)` is ordered by non-decreasing Euclidean distance from
the target (equivalently non-decreasing squared distance, since the square
root is strictly monotone), and the sort is stable on the distance key:
candidates at equal distance keep their original discovery order, the
result being the distance-stable sort of the candidate sequence truncated
to `k` entries. -/
theorem C6_knn_sorted_stable (t : Node) (target : Pt) {k : ℤ}
    (hk : 0 < k) :
    (kNearest t target k).Pairwise
        (fun a e => dist2 target a ≤ dist2 target e) ∧
      (∀ d : ℚ,
        (sortByDistance (withDist target (knnCandidates t target k))).filter
            (fun e => decide (e.dist = d)) =
          (withDist target (knnCandidates t target k)).filter
            (fun e => decide (e.dist = d))) ∧
      kNearest t target k =
        ((sortByDistance (withDist target (knnCandidates t target k))).take
          k.toNat).map PD.point :=
  ⟨kNearest_sorted t target k, fun d => sortByDistance_filter_key _ d,
    kNearest_repr t target hk⟩

/-- Witness for C6 at a concrete state (two points tied at distance 5). -/
theorem C6_witness :
    (kNearest (Node.leaf ⟨0, 0, 100, 100⟩ 4 [⟨3, 4, 1⟩, ⟨4, 3, 2⟩, ⟨6, 8, 3⟩])
        ⟨0, 0, 0⟩ 2).Pairwise
        (fun a e => dist2 ⟨0, 0, 0⟩ a ≤ dist2 ⟨0, 0, 0⟩ e) ∧
      ((sortByDistance (withDist ⟨0, 0, 0⟩ (knnCandidates
          (Node.leaf ⟨0, 0, 100, 100⟩ 4 [⟨3, 4, 1⟩, ⟨4, 3, 2⟩, ⟨6, 8, 3⟩])
          ⟨0, 0, 0⟩ 2))).filter (fun e => decide (e.dist = 25)) =
        (withDist ⟨0, 0, 0⟩ (knnCandidates
          (Node.leaf ⟨0, 0, 100, 100⟩ 4 [⟨3, 4, 1⟩, ⟨4, 3, 2⟩, ⟨6, 8, 3⟩])
          ⟨0, 0, 0⟩ 2)).filter (fun e => decide (e.dist = 25))) ∧
      kNearest (Node.leaf ⟨0, 0, 100, 100⟩ 4
          [⟨3, 4, 1⟩, ⟨4, 3, 2⟩, ⟨6, 8, 3⟩]) ⟨0, 0, 0⟩ 2 =
        ((sortByDistance (withDist ⟨0, 0, 0⟩ (knnCandidates
          (Node.leaf ⟨0, 0, 100, 100⟩ 4 [⟨3, 4, 1⟩, ⟨4, 3, 2⟩, ⟨6, 8, 3⟩])
          ⟨0, 0, 0⟩ 2))).take (2 : ℤ).toNat).map PD.point :=
  ⟨(C6_knn_sorted_stable
      (Node.leaf ⟨0, 0, 100, 100⟩ 4 [⟨3, 4, 1⟩, ⟨4, 3, 2⟩, ⟨6, 8, 3⟩])
      ⟨0, 0, 0⟩ (by norm_num)).1,
    (C6_knn_sorted_stable
      (Node.leaf ⟨0, 0, 100, 100⟩ 4 [⟨3, 4, 1⟩, ⟨4, 3, 2⟩, ⟨6, 8, 3⟩])
      ⟨0, 0, 0⟩ (by norm_num)).2.1 25,
    (C6_knn_sorted_stable
      (Node.leaf ⟨0, 0, 100, 100⟩ 4 [⟨3, 4, 1⟩, ⟨4, 3, 2⟩, ⟨6, 8, 3⟩])
      ⟨0, 0, 0⟩ (by norm_num)).2.2⟩

/-- C7: in every tree state reachable through the public API from a tree
created with capacity `c`, every node carries capacity `c` (it is
inherited at subdivision time) and every leaf holds at most `c` points. -/
theorem C7_capacity_invariant {b : Bnds} {c : ℤ} {t : Node}
    (hr : Reach b c t) : capOk c t :=
  (reach_inv hr).2.1.1

/-- Witness for C7 at a concrete reachable state. -/
theorem C7_witness :
    capOk 4 (Node.leaf ⟨0, 0, 8, 8⟩ 4 [⟨1, 1, 9⟩]) :=
  C7_capacity_invariant
    (Reach.insert (Reach.init (by norm_num) (by norm_num) (by norm_num))
      (insert_leaf_room 0 ⟨1, 1, 9⟩
        (by rw [containsB_iff]; norm_num) (by norm_num)))

/-- C8: `Remove(point)` returns `false` and leaves the tree completely
unchanged whenever the point lies outside the root's bounds or no stored
point has exactly matching `(x, y)` coordinates. -/
theorem C8_remove_failed_unchanged (t : Node) (p : Pt)
    (h : containsB t.bnds p = false ∨
      ∀ q ∈ allPts t, sameXY p q = false) :
    removeNode t p = (t, false) := by
  rcases h with hout | hnomatch
  · cases t with
    | leaf b c pts =>
        have hb : containsB b p = false := hout
        simp [removeNode, hb]
    | internal b c c0 c1 c2 c3 =>
        have hb : containsB b p = false := hout
        simp [removeNode, hb]
  · rcases hrr : removeNode t p with ⟨t', r⟩
    cases r
    · have hfe := removeNode_false t p
      rw [hrr] at hfe
      have he : t' = t := hfe rfl
      rw [he]
    · exfalso
      have htr := removeNode_true t p
      rw [hrr] at htr
      obtain ⟨q, hq, hs, _⟩ := htr rfl
      rw [hnomatch q hq] at hs
      exact absurd hs (by simp)

/-- Witness for C8: removing a point with no coordinate match. -/
theorem C8_witness :
    removeNode (Node.leaf ⟨0, 0, 100, 100⟩ 4 [⟨5, 5, 1⟩]) ⟨6, 6, 0⟩ =
      (Node.leaf ⟨0, 0, 100, 100⟩ 4 [⟨5, 5, 1⟩], false) :=
  C8_remove_failed_unchanged _ _ (Or.inr (by decide))

/-- C9: `Intersects` is symmetric — `Intersects(a, b) = Intersects(b, a)`
for all rectangles (with or without non-negative extents). -/
theorem C9_intersects_symm (a o : Bnds) :
    intersectsB a o = intersectsB o a := by
  rw [Bool.eq_iff_iff, intersectsB_iff, intersectsB_iff]
  constructor
  · rintro ⟨h1, h2, h3, h4⟩
    exact ⟨h2, h1, h4, h3⟩
  · rintro ⟨h1, h2, h3, h4⟩
    exact ⟨h2, h1, h4, h3⟩

/-- C10: in every reachable tree state holding two or more points with
identical coordinates, `Remove` with those coordinates returns `true` and
deletes exactly one matching occurrence: the stored multiset afterwards is
the prior one with that single occurrence erased, so every other stored
point — including the remaining coordinate duplicates — is still
present. -/
theorem C10_remove_duplicate {b : Bnds} {c : ℤ} {t : Node} {p : Pt}
    (hr : Reach b c t)
    (hdup : 2 ≤ ((allPts t).filter (fun q => sameXY p q)).length) :
    (removeNode t p).2 = true ∧
      ∃ q ∈ pointsM t, sameXY p q = true ∧
        pointsM (removeNode t p).1 = (pointsM t).erase q := by
  obtain ⟨_, hinv, _⟩ := reach_inv hr
  have hex : ∃ q ∈ allPts t, sameXY p q = true := by
    have hpos : ((allPts t).filter (fun q => sameXY p q)) ≠ [] := by
      intro hnil
      rw [hnil] at hdup
      simp at hdup
    obtain ⟨q, hq⟩ := List.exists_mem_of_ne_nil _ hpos
    exact ⟨q, (List.mem_filter.mp hq).1, (List.mem_filter.mp hq).2⟩
  obtain ⟨q0, hq0, hs0⟩ := hex
  have htrue := removeNode_found p q0 hs0 t hinv.2.1 hq0
  refine ⟨htrue, ?_⟩
  obtain ⟨q, hq, hs, hm⟩ := removeNode_true t p htrue
  exact ⟨q, by simpa [pointsM] using hq, hs, hm⟩

/-- Witness for C10 at a concrete reachable state with two duplicates. -/
theorem C10_witness :
    (removeNode (Node.leaf ⟨0, 0, 100, 100⟩ 4 [⟨7, 7, 1⟩, ⟨7, 7, 2⟩])
        ⟨7, 7, 0⟩).2 = true ∧
      ∃ q ∈ pointsM (Node.leaf ⟨0, 0, 100, 100⟩ 4 [⟨7, 7, 1⟩, ⟨7, 7, 2⟩]),
        sameXY ⟨7, 7, 0⟩ q = true ∧
          pointsM (removeNode
              (Node.leaf ⟨0, 0, 100, 100⟩ 4 [⟨7, 7, 1⟩, ⟨7, 7, 2⟩])
              ⟨7, 7, 0⟩).1 =
            (pointsM (Node.leaf ⟨0, 0, 100, 100⟩ 4
              [⟨7, 7, 1⟩, ⟨7, 7, 2⟩])).erase q :=
  C10_remove_duplicate
    (Reach.insert
      (Reach.insert (Reach.init (by norm_num) (by norm_num) (by norm_num))
        (insert_leaf_room 0 ⟨7, 7, 1⟩
          (by rw [containsB_iff]; norm_num) (by norm_num)))
      (insert_leaf_room 0 ⟨7, 7, 2⟩
        (by rw [containsB_iff]; norm_num) (by norm_num)))
    (by decide)

end QTree
